import Mathlib

/-!
# Cyclic Dependency Finder — verification development

Shallow embedding of the core of `find_cycles.py`:

* `build_graph` — builds a directed graph (adjacency sets) and an
  edge-provenance index from tabular sheet data;
* `find_all_cycles` — three-colour DFS enumeration of cycles;
* `deduplicate_cycles` — removal of rotation-duplicates.

Python dictionaries are modelled as insertion-ordered association lists
(`List (α × β)`); Python sets as insertion-ordered duplicate-free lists.
Python string operations (`strip`, `lower`, `split`) are modelled
explicitly over the character data so that everything reduces in the
kernel.  Fallible operations (a `KeyError` on a missing colour entry, a
`ValueError` from `min([])`) are modelled with `Option`.  The recursion
of the DFS is made total with an explicit fuel argument, set to the
number of graph nodes by the driver (the recursion depth of the Python
code is bounded by the node count, so this fuel is sufficient — proved
below).
-/

namespace CycFind

/-! ## Python dictionaries as insertion-ordered association lists -/

variable {α : Type} {β : Type}

/-- Dictionary lookup: value of the first (hence, in a dict, unique)
entry with the given key. -/
def dictFind? [DecidableEq α] (d : List (α × β)) (k : α) : Option β :=
  (d.find? (fun p => decide (p.1 = k))).map (fun p => p.2)

/-- Python `k in d` for a dictionary. -/
def dictContains [DecidableEq α] (d : List (α × β)) (k : α) : Bool :=
  (dictFind? d k).isSome

/-- The key list of a dictionary, in insertion order. -/
def dictKeys (d : List (α × β)) : List α :=
  d.map (fun p => p.1)

/-- Python `d[k] = v`: overwrite the entry if the key is present,
otherwise append a new entry (insertion order). -/
def dictSet [DecidableEq α] (d : List (α × β)) (k : α) (v : β) : List (α × β) :=
  if dictContains d k then
    d.map (fun p => if p.1 = k then (p.1, v) else p)
  else d ++ [(k, v)]

/-- Python `s.add(x)` on a set modelled as an insertion-ordered
duplicate-free list. -/
def setAdd [DecidableEq α] (s : List α) (x : α) : List α :=
  if x ∈ s then s else s ++ [x]

/-- Python `l.index(x)` / `headers.index(h)`: index of the first
occurrence (callers only use it when `x` is present). -/
def pyIndex [DecidableEq α] (l : List α) (x : α) : Nat :=
  l.findIdx (fun y => decide (y = x))

/-! ## Python string primitives, modelled over the character data -/

/-- `str.lower` for a single character (ASCII, which is all the
column-name matching in the source relies on). -/
def lowerChar (c : Char) : Char :=
  if 'A' ≤ c ∧ c ≤ 'Z' then Char.ofNat (c.toNat + 32) else c

/-- Python `s.lower()`. -/
def pyLower (s : String) : String :=
  String.mk (s.data.map lowerChar)

/-- Python `s.strip()`: remove leading and trailing whitespace. -/
def pyStrip (s : String) : String :=
  String.mk (((s.data.dropWhile Char.isWhitespace).reverse.dropWhile
    Char.isWhitespace).reverse)

/-- One left-to-right scan of Python `s.split(sep)` for a non-empty
separator, structural in a fuel bounded by the string length. -/
def pySplitGo (sep : List Char) : Nat → List Char → List Char → List (List Char)
  | _, [], acc => [acc.reverse]
  | 0, s, acc => [acc.reverse ++ s]
  | Nat.succ n, c :: cs, acc =>
    if sep.isPrefixOf (c :: cs) then
      acc.reverse :: pySplitGo sep n (List.drop sep.length (c :: cs)) []
    else
      pySplitGo sep n cs (c :: acc)

/-- Python `s.split(sep)` with an explicit non-empty separator:
split at every non-overlapping occurrence, keeping empty pieces. -/
def pySplit (s : String) (sep : String) : List String :=
  (pySplitGo sep.data s.data.length s.data []).map String.mk

/-! ## The tabular data source (the abstract collaborator of the spec)

A sheet exposes a name, an ordered header row and ordered data rows;
a cell is `Option String` (`none` is an empty/absent cell, `some v` is a
present cell whose `str()` form is `v`; openpyxl pads short rows with
`None`, which is why a positional read of a missing cell yields `none`).
-/

structure Sheet where
  name : String
  header : List (Option String)
  rows : List (List (Option String))

/-- A directed graph: dict from node to its neighbour set. -/
abbrev GraphT (α : Type) := List (α × List α)

/-- The edge-provenance index: dict from `(source, target)` to the list
of sheet names that contributed that edge, in encounter order. -/
abbrev OriginsT := List ((String × String) × List String)

/-- State threaded by the graph builder: `(graph, edge_origins)`. -/
abbrev BuildSt := GraphT String × OriginsT

/-! ## `build_graph` (source lines 106–159) -/

/-- `headers = [str(cell.value).strip() if cell.value is not None else ""
for cell in next(sheet.iter_rows(...))]`. -/
def sheetHeaders (sheet : Sheet) : List String :=
  sheet.header.map (fun cell =>
    match cell with
    | some v => pyStrip v
    | none => "")

/-- Case-insensitive column lookup: `none` when the sheet lacks either
column (the sheet is then skipped), otherwise the pair
`(src_idx, tgt_idx)` of first matching header positions. -/
def findCols (sheet : Sheet) (source_col target_col : String) :
    Option (Nat × Nat) :=
  let headers_lower := (sheetHeaders sheet).map pyLower
  let src_lower := pyLower source_col
  let tgt_lower := pyLower target_col
  if src_lower ∈ headers_lower ∧ tgt_lower ∈ headers_lower then
    some (pyIndex headers_lower src_lower, pyIndex headers_lower tgt_lower)
  else none

/-- The list of target values of one row: split on the separator when
one is configured (Python truthiness: `None` and `""` both mean "no
separator"), strip each piece, drop empty pieces. -/
def rowTargets (separator : Option String) (raw_targets : String) :
    List String :=
  match separator with
  | some sep =>
    if sep = "" then [raw_targets]
    else ((pySplit raw_targets sep).map pyStrip).filter (fun t => decide (t ≠ ""))
  | none => [raw_targets]

/-- One edge insertion: `graph[source].add(target)`;
`edge_origins[(source, target)].append(sheet_name)`;
`if target not in graph: graph[target] = set()`. -/
def addEdge (st : BuildSt) (source_val target_val sheet_name : String) :
    BuildSt :=
  let graph :=
    match dictFind? st.1 source_val with
    | some s => dictSet st.1 source_val (setAdd s target_val)
    | none => st.1 ++ [(source_val, setAdd [] target_val)]
  let edge_origins :=
    match dictFind? st.2 (source_val, target_val) with
    | some l => dictSet st.2 (source_val, target_val) (l ++ [sheet_name])
    | none => st.2 ++ [((source_val, target_val), [sheet_name])]
  let graph :=
    if dictContains graph target_val then graph
    else graph ++ [(target_val, [])]
  (graph, edge_origins)

/-- Processing of one data row (source lines 136–157). -/
def processRow (separator : Option String) (sheet_name : String)
    (src_idx tgt_idx : Nat) (st : BuildSt) (row : List (Option String)) :
    BuildSt :=
  match row.getD src_idx none, row.getD tgt_idx none with
  | some sv, some tv =>
    let source_val := pyStrip sv
    if source_val = "" then st
    else
      let raw_targets := pyStrip tv
      if raw_targets = "" then st
      else
        (rowTargets separator raw_targets).foldl
          (fun st2 target_val => addEdge st2 source_val target_val sheet_name)
          st
  | _, _ => st

/-- Processing of one sheet: skip it entirely when either configured
column is missing (case-insensitively), else fold over the data rows. -/
def processSheet (source_col target_col : String) (separator : Option String)
    (st : BuildSt) (sheet : Sheet) : BuildSt :=
  match findCols sheet source_col target_col with
  | none => st
  | some (src_idx, tgt_idx) =>
    sheet.rows.foldl (processRow separator sheet.name src_idx tgt_idx) st

/-- `build_graph` (source lines 106–159): fold the sheets into the
`(graph, edge_origins)` pair, starting from empty dictionaries. -/
def build_graph (sheets : List Sheet) (source_col target_col : String)
    (separator : Option String) : BuildSt :=
  sheets.foldl (processSheet source_col target_col separator) ([], [])

/-! ## `find_all_cycles` (source lines 162–188) -/

def WHITE : Nat := 0
def GRAY : Nat := 1
def BLACK : Nat := 2

/-- Colour table: dict from node to colour. -/
abbrev ColorsT (α : Type) := List (α × Nat)

/-- `graph.get(node, [])`: the neighbour set of a node, empty for a
missing key. -/
def nbrs [DecidableEq α] (g : GraphT α) (node : α) : List α :=
  (dictFind? g node).getD []

/-- The loop `for neighbour in graph.get(node, [])` of `dfs`.  `rec` is
the recursive call for WHITE neighbours; `path1` is the current path
(the Python `path_set` always holds exactly the members of `path`, so
the membership test is on `path1`).  A `none` result is a `KeyError`
propagated from `color[neighbour]` on a key that is not in the colour
table, or exhausted fuel inside `rec`. -/
def dfsScan [DecidableEq α]
    (rec : α → ColorsT α → List (List α) → Option (ColorsT α × List (List α)))
    (path1 : List α) :
    List α → ColorsT α → List (List α) → Option (ColorsT α × List (List α))
  | [], color, cycles => some (color, cycles)
  | neighbour :: rest, color, cycles =>
    match dictFind? color neighbour with
    | none => none
    | some col =>
      if col = GRAY ∧ neighbour ∈ path1 then
        let cycle_start := pyIndex path1 neighbour
        dfsScan rec path1 rest color (cycles ++ [path1.drop cycle_start])
      else if col = WHITE then
        match rec neighbour color cycles with
        | none => none
        | some (c2, cy2) => dfsScan rec path1 rest c2 cy2
      else
        dfsScan rec path1 rest color cycles

/-- The recursive `dfs(node, color, path, path_set)` of the source:
mark the node GRAY, push it on the path, scan the neighbours (recording
a cycle for every GRAY neighbour on the path, recursing into every
WHITE neighbour), then pop the node and mark it BLACK.  The explicit
fuel bounds the recursion depth; the driver passes the node count. -/
def dfs [DecidableEq α] (g : GraphT α) :
    Nat → α → ColorsT α → List α → List (List α) →
    Option (ColorsT α × List (List α))
  | 0, _, _, _, _ => none
  | Nat.succ fuel, node, color, path, cycles =>
    let color1 := dictSet color node GRAY
    let path1 := path ++ [node]
    match dfsScan (fun m c cy => dfs g fuel m c path1 cy) path1
        (nbrs g node) color1 cycles with
    | none => none
    | some (c2, cy2) => some (dictSet c2 node BLACK, cy2)

/-- The driver loop `for node in graph: if color[node] == WHITE:
dfs(node, color, [], set())`.  The colour table and the cycle list are
shared across roots; each root starts with a fresh empty path. -/
def dfsDriver [DecidableEq α] (g : GraphT α) (fuel : Nat) :
    List α → ColorsT α → List (List α) →
    Option (ColorsT α × List (List α))
  | [], color, cycles => some (color, cycles)
  | node :: rest, color, cycles =>
    match dictFind? color node with
    | none => none
    | some col =>
      if col = WHITE then
        match dfs g fuel node color [] cycles with
        | none => none
        | some (c2, cy2) => dfsDriver g fuel rest c2 cy2
      else
        dfsDriver g fuel rest color cycles

/-- `find_all_cycles(graph)` (source lines 162–188): initialise every
node WHITE, run the DFS driver over all nodes, return the recorded
cycles.  Fuel is the node count (the recursion depth never exceeds it,
proved below). -/
def find_all_cycles [DecidableEq α] (g : GraphT α) : Option (List (List α)) :=
  let color := g.map (fun p => (p.1, WHITE))
  match dfsDriver g (dictKeys g).length (dictKeys g) color [] with
  | none => none
  | some (_, cycles) => some cycles

/-! ## `deduplicate_cycles` (source lines 191–201) -/

/-- Python `min(cycle)`: `none` on the empty list (a `ValueError`),
otherwise the least element (a left fold with `min`, which returns the
first of equal elements, exactly as Python does). -/
def pyMin [LinearOrder α] : List α → Option α
  | [] => none
  | x :: xs => some (xs.foldl min x)

/-- The loop of `deduplicate_cycles`, threading the `seen` set of
canonical keys and the surviving `unique` list. -/
def dedupGo [LinearOrder α] (seen unique : List (List α)) :
    List (List α) → Option (List (List α))
  | [] => some unique
  | cycle :: rest =>
    match pyMin cycle with
    | none => none
    | some m =>
      let min_idx := pyIndex cycle m
      let rotated := cycle.drop min_idx ++ cycle.take min_idx
      if rotated ∈ seen then dedupGo seen unique rest
      else dedupGo (rotated :: seen) (unique ++ [cycle]) rest

/-- `deduplicate_cycles(cycles)` (source lines 191–201): rotate each
cycle so its least label comes first, and keep only the first cycle
encountered for each such canonical key, unchanged. -/
def deduplicate_cycles [LinearOrder α] (cycles : List (List α)) :
    Option (List (List α)) :=
  dedupGo [] [] cycles

/-! ## Specification-level predicates and proof-side definitions -/

/-- The data-model closure invariant: every member of every neighbour
set is itself a key of the graph mapping. -/
def Closed (g : GraphT α) : Prop :=
  ∀ p ∈ g, ∀ m ∈ p.2, m ∈ dictKeys g

/-- Well-formedness inherent to the Python data model: a dict has no
duplicate keys. -/
def WFg (g : GraphT α) : Prop :=
  (dictKeys g).Nodup

/-- `c` is a directed cycle of `g`: a non-empty node sequence whose
consecutive elements are joined by edges, with a closing edge from the
last back to the first. -/
def IsCycleOf [DecidableEq α] (g : GraphT α) : List α → Prop
  | [] => False
  | h :: t => List.Chain (fun a b => b ∈ nbrs g a) h t ∧ h ∈ nbrs g (t.getLastD h)

/-- Executable edge-chain check (kernel-reducible, unlike the generic
`Chain` decidability instance). -/
def chainB [DecidableEq α] (g : GraphT α) : α → List α → Bool
  | _, [] => true
  | a, b :: t => decide (b ∈ nbrs g a) && chainB g b t

/-- Executable cycle check mirroring `IsCycleOf`. -/
def isCycleOfB [DecidableEq α] (g : GraphT α) : List α → Bool
  | [] => false
  | h :: t => chainB g h t && decide (h ∈ nbrs g (t.getLastD h))

instance instDecidableIsCycleOf [DecidableEq α] (g : GraphT α)
    (c : List α) : Decidable (IsCycleOf g c) :=
  decidable_of_iff (isCycleOfB g c = true) (by
    have hch : ∀ (a : α) (t : List α),
        chainB g a t = true ↔ List.Chain (fun a b => b ∈ nbrs g a) a t := by
      intro a t
      induction t generalizing a with
      | nil => simp [chainB]
      | cons b u ih =>
        rw [List.chain_cons, chainB]
        rw [Bool.and_eq_true, decide_eq_true_eq, ih b]
    cases c with
    | nil => simp [IsCycleOf, isCycleOfB]
    | cons h t =>
      rw [IsCycleOf, isCycleOfB, Bool.and_eq_true, decide_eq_true_eq, hch])

instance instDecidableWFg [DecidableEq α] (g : GraphT α) :
    Decidable (WFg g) :=
  inferInstanceAs (Decidable ((dictKeys g).Nodup))

instance instDecidableClosed [DecidableEq α] (g : GraphT α) :
    Decidable (Closed g) :=
  inferInstanceAs (Decidable (∀ p ∈ g, ∀ m ∈ p.2, m ∈ dictKeys g))

/-- The GRAY nodes of the colour table are exactly the members of the
current DFS path (the source keeps `path` and `path_set` in sync with
the GRAY marks). -/
def GraysPath [DecidableEq α] (c : ColorsT α) (path : List α) : Prop :=
  ∀ n, dictFind? c n = some GRAY ↔ n ∈ path

/-- `Evol g c cy c' cy'` collects everything one completed, error-free
stretch of DFS work guarantees about how the colour table and the
cycle list change: keys are stable, the GRAY set is restored, WHITE
never reappears, BLACK is permanent, any node that turned BLACK had
every neighbour present in the colour table when it was scanned,
colours stay in the WHITE/GRAY/BLACK range, and the cycle list only
grows — by genuine, duplicate-free cycles of the graph. -/
structure Evol [DecidableEq α] (g : GraphT α) (c : ColorsT α)
    (cy : List (List α)) (c' : ColorsT α) (cy' : List (List α)) : Prop where
  keys : dictKeys c' = dictKeys c
  graysEq : ∀ n, (dictFind? c' n = some GRAY ↔ dictFind? c n = some GRAY)
  whitePres : ∀ n, dictFind? c' n = some WHITE → dictFind? c n = some WHITE
  blackPres : ∀ n, dictFind? c n = some BLACK → dictFind? c' n = some BLACK
  scanned : ∀ n, dictFind? c' n = some BLACK →
    dictFind? c n = some BLACK ∨ ∀ m ∈ nbrs g n, m ∈ dictKeys c
  vals : ∀ n v, dictFind? c' n = some v →
    dictFind? c n = some v ∨ v = GRAY ∨ v = BLACK
  cyMono : ∃ δ, cy' = cy ++ δ
  sound : ∀ x ∈ cy', x ∈ cy ∨ (IsCycleOf g x ∧ x.Nodup)

/-- The statement proved about `dfs` at a given fuel: a successful run
from a WHITE node whose path data is coherent is an `Evol` step that
ends with the node BLACK. -/
def DfsGood [DecidableEq α] (g : GraphT α) (fuel : Nat) : Prop :=
  ∀ node c path cy c' cy', dfs g fuel node c path cy = some (c', cy') →
    dictFind? c node = some WHITE →
    GraysPath c path →
    (path ++ [node]).Nodup →
    List.Chain' (fun a b => b ∈ nbrs g a) (path ++ [node]) →
    Evol g c cy c' cy' ∧ dictFind? c' node = some BLACK

/-- The number of WHITE entries of the colour table. -/
def whiteKeys [DecidableEq α] (c : ColorsT α) : Nat :=
  ((dictKeys c).filter (fun n => decide (dictFind? c n = some WHITE))).length

/-- The statement proved about termination of `dfs` at a given fuel. -/
def DfsTerm [DecidableEq α] (g : GraphT α) (fuel : Nat) : Prop :=
  ∀ node c path cy, Closed g → WFg g → dictKeys c = dictKeys g →
    dictFind? c node = some WHITE →
    GraysPath c path →
    (path ++ [node]).Nodup →
    List.Chain' (fun a b => b ∈ nbrs g a) (path ++ [node]) →
    whiteKeys c ≤ fuel →
    (dfs g fuel node c path cy).isSome

/-- Colour values are always WHITE, GRAY or BLACK. -/
def AllVals [DecidableEq α] (c : ColorsT α) : Prop :=
  ∀ n v, dictFind? c n = some v → v = WHITE ∨ v = GRAY ∨ v = BLACK

/-- Every BLACK node's neighbours are BLACK (true as long as no GRAY
back edge was ever skipped — i.e. as long as no cycle was recorded,
every scanned neighbour of a finished node is finished). -/
def GoodB [DecidableEq α] (g : GraphT α) (c : ColorsT α) : Prop :=
  ∀ n, dictFind? c n = some BLACK → ∀ m ∈ nbrs g n, dictFind? c m = some BLACK

/-- No cycle of the graph is entirely BLACK. -/
def NoBlackCycle [DecidableEq α] (g : GraphT α) (c : ColorsT α) : Prop :=
  ¬ ∃ K, IsCycleOf g K ∧ ∀ n ∈ K, dictFind? c n = some BLACK

/-- The statement proved about recording-free `dfs` runs at a fixed
fuel. -/
def DfsNC [DecidableEq α] (g : GraphT α) (fuel : Nat) : Prop :=
  ∀ node c path cy c' cy', dfs g fuel node c path cy = some (c', cy') →
    cy' = cy →
    dictFind? c node = some WHITE →
    GraysPath c path →
    (path ++ [node]).Nodup →
    List.Chain' (fun a b => b ∈ nbrs g a) (path ++ [node]) →
    AllVals c → GoodB g c → NoBlackCycle g c →
    GoodB g c' ∧ NoBlackCycle g c'

/-- The canonical key `deduplicate_cycles` computes for one cycle:
rotate the least label to the front (`none` for the empty cycle, whose
`min` raises). -/
def canonKey [LinearOrder α] (cycle : List α) : Option (List α) :=
  (pyMin cycle).map (fun m =>
    cycle.drop (pyIndex cycle m) ++ cycle.take (pyIndex cycle m))

/-- The edge-provenance update performed by one edge insertion:
`edge_origins[(source, target)].append(sheet_name)` on a
`defaultdict(list)`. -/
def eoStep (eo : OriginsT) (q : (String × String) × String) : OriginsT :=
  match dictFind? eo q.1 with
  | some l => dictSet eo q.1 (l ++ [q.2])
  | none => eo ++ [(q.1, [q.2])]

/-- The `((source, target), sheet_name)` events one data row generates,
in order: empty/blank cells generate none, otherwise one event per
non-empty target piece.  (Follows the spec's description of which rows
and pieces produce edges.) -/
def rowEvents (separator : Option String) (sheet_name : String)
    (src_idx tgt_idx : Nat) (row : List (Option String)) :
    List ((String × String) × String) :=
  match row.getD src_idx none, row.getD tgt_idx none with
  | some sv, some tv =>
    let source_val := pyStrip sv
    if source_val = "" then []
    else
      let raw_targets := pyStrip tv
      if raw_targets = "" then []
      else (rowTargets separator raw_targets).map
        (fun target_val => ((source_val, target_val), sheet_name))
  | _, _ => []

/-- The events of one sheet: none when the sheet lacks either column,
otherwise the concatenation of its rows' events, in row order. -/
def sheetEvents (source_col target_col : String) (separator : Option String)
    (sheet : Sheet) : List ((String × String) × String) :=
  match findCols sheet source_col target_col with
  | none => []
  | some (src_idx, tgt_idx) =>
    sheet.rows.flatMap (rowEvents separator sheet.name src_idx tgt_idx)

/-- Modelled from the spec (§3, Edge Provenance Index): the ordered
sequence of `((source, target), sheet_name)` observations across all
sheets — "order = encounter order across sheets; duplicates across
multiple rows in the same sheet are preserved as repeated entries". -/
def specEdgeOccurrences (sheets : List Sheet)
    (source_col target_col : String) (separator : Option String) :
    List ((String × String) × String) :=
  sheets.flatMap (sheetEvents source_col target_col separator)

/-- The conditions under which one data row is silently skipped: the
source or target cell is absent (`None`) or blank after trimming. -/
def RowSkipped (row : List (Option String)) (si ti : Nat) : Prop :=
  row.getD si none = none ∨ row.getD ti none = none ∨
    (∃ sv, row.getD si none = some sv ∧ pyStrip sv = "") ∨
    (∃ tv, row.getD ti none = some tv ∧ pyStrip tv = "")

/-! ## Dictionary lemmas -/

section DictDfs

variable [DecidableEq α]

theorem dictFind?_nil (k : α) : dictFind? ([] : List (α × β)) k = none := rfl

theorem dictFind?_cons (p : α × β) (d : List (α × β)) (k : α) :
    dictFind? (p :: d) k = if p.1 = k then some p.2 else dictFind? d k := by
  by_cases h : p.1 = k <;>
    simp [dictFind?, List.find?_cons, h]

theorem dictFind?_isSome_iff {d : List (α × β)} {k : α} :
    (dictFind? d k).isSome = true ↔ k ∈ dictKeys d := by
  induction d with
  | nil => simp [dictFind?, dictKeys]
  | cons p t ih =>
    rw [dictFind?_cons]
    by_cases h : p.1 = k
    · simp [h, dictKeys]
    · simp only [dictKeys, List.map_cons, List.mem_cons, if_neg h]
      simp only [dictKeys] at ih
      rw [ih]
      constructor
      · intro hm; right; exact hm
      · intro hm
        rcases hm with hm | hm
        · exact absurd hm.symm h
        · exact hm

theorem dictFind?_eq_none_iff {d : List (α × β)} {k : α} :
    dictFind? d k = none ↔ k ∉ dictKeys d := by
  rw [← dictFind?_isSome_iff]
  cases dictFind? d k <;> simp

theorem mem_dictKeys_of_find? {d : List (α × β)} {k : α} {v : β}
    (h : dictFind? d k = some v) : k ∈ dictKeys d := by
  rw [← dictFind?_isSome_iff, h]; rfl

theorem mem_of_dictFind? {d : List (α × β)} {k : α} {v : β}
    (h : dictFind? d k = some v) : (k, v) ∈ d := by
  induction d with
  | nil => simp [dictFind?] at h
  | cons p t ih =>
    rw [dictFind?_cons] at h
    by_cases hp : p.1 = k
    · rw [if_pos hp] at h
      obtain ⟨p1, p2⟩ := p
      simp only [Option.some_inj] at h
      simp only [List.mem_cons]
      left
      simp only at hp h
      rw [hp, h]
    · rw [if_neg hp] at h
      exact List.mem_cons_of_mem _ (ih h)

theorem dictContains_iff {d : List (α × β)} {k : α} :
    dictContains d k = true ↔ k ∈ dictKeys d := by
  rw [dictContains, dictFind?_isSome_iff]

theorem dictKeys_dictSet {d : List (α × β)} {k : α} (hk : k ∈ dictKeys d)
    (v : β) : dictKeys (dictSet d k v) = dictKeys d := by
  rw [dictSet, if_pos (dictContains_iff.mpr hk), dictKeys, dictKeys, List.map_map]
  apply List.map_congr_left
  intro p _
  by_cases h : p.1 = k <;> simp [h]

theorem dictFind?_map_set_self (d : List (α × β)) (k : α) (v : β) :
    dictFind? (d.map (fun p => if p.1 = k then (p.1, v) else p)) k =
      (dictFind? d k).map (fun _ => v) := by
  induction d with
  | nil => rfl
  | cons p t ih =>
    by_cases hp : p.1 = k
    · simp [dictFind?_cons, hp]
    · simp [dictFind?_cons, hp, ih]

theorem dictFind?_map_set_ne (d : List (α × β)) {k k' : α} (v : β)
    (h : k' ≠ k) :
    dictFind? (d.map (fun p => if p.1 = k then (p.1, v) else p)) k' =
      dictFind? d k' := by
  have hkk : k ≠ k' := Ne.symm h
  induction d with
  | nil => rfl
  | cons p t ih =>
    by_cases hp : p.1 = k
    · have hp' : ¬ p.1 = k' := by rw [hp]; exact hkk
      simp [dictFind?_cons, hp, hp', ih, hkk]
    · by_cases hp' : p.1 = k' <;> simp [dictFind?_cons, hp, hp', ih, h, hkk]

theorem dictFind?_append_right_of_none {d e : List (α × β)} {k : α}
    (h : dictFind? d k = none) : dictFind? (d ++ e) k = dictFind? e k := by
  induction d with
  | nil => rfl
  | cons p t ih =>
    rw [dictFind?_cons] at h
    by_cases hp : p.1 = k
    · rw [if_pos hp] at h; exact absurd h (by simp)
    · rw [if_neg hp] at h
      rw [List.cons_append, dictFind?_cons, if_neg hp]
      exact ih h

theorem dictFind?_append_left {d e : List (α × β)} {k : α} {v : β}
    (h : dictFind? d k = some v) : dictFind? (d ++ e) k = some v := by
  induction d with
  | nil => simp [dictFind?] at h
  | cons p t ih =>
    rw [dictFind?_cons] at h
    rw [List.cons_append, dictFind?_cons]
    by_cases hp : p.1 = k
    · rwa [if_pos hp] at h ⊢
    · rw [if_neg hp] at h ⊢
      exact ih h

theorem dictFind?_dictSet_self (d : List (α × β)) (k : α) (v : β) :
    dictFind? (dictSet d k v) k = some v := by
  rw [dictSet]
  by_cases hc : dictContains d k = true
  · rw [if_pos hc, dictFind?_map_set_self]
    rw [dictContains] at hc
    cases h : dictFind? d k
    · rw [h] at hc; simp at hc
    · rfl
  · rw [if_neg hc]
    rw [dictContains] at hc
    have hn : dictFind? d k = none := by
      cases h : dictFind? d k
      · rfl
      · rw [h] at hc; simp at hc
    rw [dictFind?_append_right_of_none hn, dictFind?_cons]
    simp

theorem dictFind?_dictSet_ne (d : List (α × β)) {k k' : α} (v : β)
    (h : k' ≠ k) : dictFind? (dictSet d k v) k' = dictFind? d k' := by
  rw [dictSet]
  by_cases hc : dictContains d k = true
  · rw [if_pos hc, dictFind?_map_set_ne _ _ h]
  · rw [if_neg hc]
    cases hf : dictFind? d k' with
    | none =>
      rw [dictFind?_append_right_of_none hf, dictFind?_cons]
      simp [Ne.symm h, dictFind?_nil]
    | some w => rw [dictFind?_append_left hf]

theorem dictKeys_append (d e : List (α × β)) :
    dictKeys (d ++ e) = dictKeys d ++ dictKeys e := by
  simp [dictKeys]

/-! ## Graph-level lemmas -/

theorem nbrs_eq_of_find? {g : GraphT α} {n : α} {l : List α}
    (h : dictFind? g n = some l) : nbrs g n = l := by
  rw [nbrs, h]; rfl

theorem nbrs_ne_nil_mem_keys {g : GraphT α} {n : α}
    (h : nbrs g n ≠ []) : n ∈ dictKeys g := by
  rw [nbrs] at h
  cases hf : dictFind? g n with
  | none => rw [hf] at h; simp at h
  | some l => exact mem_dictKeys_of_find? hf

theorem closed_nbrs_sub {g : GraphT α} (hc : Closed g) {n m : α}
    (h : m ∈ nbrs g n) : m ∈ dictKeys g := by
  rw [nbrs] at h
  cases hf : dictFind? g n with
  | none => rw [hf] at h; simp at h
  | some l =>
    rw [hf] at h
    exact hc _ (mem_of_dictFind? hf) m h

/-- The node of a dict entry is found by `dictFind?` when keys are
unique. -/
theorem dictFind?_of_mem_wf {d : List (α × β)} (hw : (dictKeys d).Nodup)
    {p : α × β} (hp : p ∈ d) : dictFind? d p.1 = some p.2 := by
  induction d with
  | nil => simp at hp
  | cons q t ih =>
    rw [dictKeys] at hw
    simp only [List.map_cons, List.nodup_cons] at hw
    rw [List.mem_cons] at hp
    rcases hp with hp | hp
    · rw [hp, dictFind?_cons, if_pos rfl]
    · have hq : q.1 ≠ p.1 := by
        intro he
        exact hw.1 (he ▸ List.mem_map_of_mem (fun r => r.1) hp)
      rw [dictFind?_cons, if_neg hq]
      exact ih hw.2 hp

/-! ## `pyIndex` facts -/

theorem pyIndex_drop {l : List α} {x : α} (h : x ∈ l) :
    ∃ t, l.drop (pyIndex l x) = x :: t := by
  induction l with
  | nil => simp at h
  | cons a l ih =>
    by_cases ha : a = x
    · refine ⟨l, ?_⟩
      rw [pyIndex, List.findIdx_cons]
      simp [ha]
    · rw [List.mem_cons] at h
      rcases h with h | h
      · exact absurd h.symm ha
      · obtain ⟨t, ht⟩ := ih h
        refine ⟨t, ?_⟩
        have hstep : List.findIdx (fun y => decide (y = x)) (a :: l) =
            List.findIdx (fun y => decide (y = x)) l + 1 := by
          rw [List.findIdx_cons]
          simp [ha]
        rw [pyIndex, hstep, List.drop_succ_cons]
        exact ht

theorem pyIndex_lt_length {l : List α} {x : α} (h : x ∈ l) :
    pyIndex l x < l.length := by
  obtain ⟨t, ht⟩ := pyIndex_drop h
  by_contra hle
  push_neg at hle
  rw [List.drop_eq_nil_of_le hle] at ht
  exact absurd ht (by simp)

/-! ## Facts about cycles of a graph -/

/-- The cycle recorded when a GRAY ancestor `m` on the path closes an
edge from the path tip `node` is a genuine directed cycle of `g`. -/
theorem recorded_isCycleOf {g : GraphT α} {path1 : List α} {node m : α}
    (hch : List.Chain' (fun a b => b ∈ nbrs g a) path1)
    (hlast : path1.getLast? = some node)
    (hclose : m ∈ nbrs g node) (hm : m ∈ path1) :
    IsCycleOf g (path1.drop (pyIndex path1 m)) := by
  obtain ⟨t, ht⟩ := pyIndex_drop hm
  rw [ht]
  have hsuf : (m :: t) <:+ path1 := ht ▸ List.drop_suffix _ _
  have hch2 : List.Chain' (fun a b => b ∈ nbrs g a) (m :: t) :=
    hch.suffix hsuf
  have hlast2 : (m :: t).getLast? = some node := by
    obtain ⟨pre, hpre⟩ := hsuf
    rw [← hpre] at hlast
    rwa [List.getLast?_append_of_ne_nil pre (by simp)] at hlast
  have hlast3 : t.getLastD m = node := by
    rw [List.getLastD_eq_getLast?]
    cases t with
    | nil => simpa using hlast2
    | cons b u =>
      rw [List.getLast?_cons_cons] at hlast2
      rw [hlast2]
      rfl
  constructor
  · exact hch2
  · rw [hlast3]
    exact hclose

/-- Every node of a cycle has an outgoing edge inside the cycle; in
particular its neighbour list is non-empty. -/
theorem cycle_nbrs_ne_nil {g : GraphT α} {K : List α} (hK : IsCycleOf g K) :
    ∀ n ∈ K, nbrs g n ≠ [] := by
  cases K with
  | nil => exact absurd hK (by simp [IsCycleOf])
  | cons h t =>
    obtain ⟨hch, hcl⟩ := hK
    intro n hn
    by_cases hlast : n = t.getLastD h
    · rw [hlast] at *
      intro he
      rw [he] at hcl
      simp at hcl
    · -- n is followed by some element inside the chain
      clear hcl
      induction t generalizing h with
      | nil =>
        rw [List.mem_singleton] at hn
        exact absurd hn hlast
      | cons b u ih =>
        rcases List.chain_cons.mp hch with ⟨hhb, hch2⟩
        rw [List.mem_cons] at hn
        rcases hn with hn | hn
        · rw [hn]
          intro he
          rw [he] at hhb
          simp at hhb
        · exact ih b hch2 hn (by rwa [List.getLastD_cons] at hlast)

/-- Every node of a cycle has a predecessor in the cycle. -/
theorem cycle_pred {g : GraphT α} {K : List α} (hK : IsCycleOf g K) :
    ∀ n ∈ K, ∃ w ∈ K, n ∈ nbrs g w := by
  cases K with
  | nil => exact absurd hK (by simp [IsCycleOf])
  | cons h t =>
    obtain ⟨hch, hcl⟩ := hK
    intro n hn
    rw [List.mem_cons] at hn
    rcases hn with hn | hn
    · exact ⟨t.getLastD h, List.getLastD_mem_cons t h, hn ▸ hcl⟩
    · -- n occurs in the chain tail: its predecessor is the element before it
      clear hcl
      induction t generalizing h with
      | nil => simp at hn
      | cons b u ih =>
        rcases List.chain_cons.mp hch with ⟨hhb, hch2⟩
        rw [List.mem_cons] at hn
        rcases hn with hn | hn
        · exact ⟨h, List.mem_cons_self _ _, hn ▸ hhb⟩
        · obtain ⟨w, hw, hwn⟩ := ih b hch2 hn
          exact ⟨w, List.mem_cons_of_mem _ hw, hwn⟩

/-! ## DFS state evolution lemmas -/

theorem Evol.refl {g : GraphT α} {c : ColorsT α} {cy : List (List α)} :
    Evol g c cy c cy :=
  ⟨rfl, fun _ => Iff.rfl, fun _ h => h, fun _ h => h,
    fun _ h => Or.inl h, fun _ _ h => Or.inl h,
    ⟨[], (List.append_nil cy).symm⟩, fun _ hx => Or.inl hx⟩

theorem Evol.trans {g : GraphT α} {c₁ c₂ c₃ : ColorsT α}
    {cy₁ cy₂ cy₃ : List (List α)}
    (e₁ : Evol g c₁ cy₁ c₂ cy₂) (e₂ : Evol g c₂ cy₂ c₃ cy₃) :
    Evol g c₁ cy₁ c₃ cy₃ := by
  refine ⟨e₂.keys.trans e₁.keys, fun n => (e₂.graysEq n).trans (e₁.graysEq n),
    fun n h => e₁.whitePres n (e₂.whitePres n h),
    fun n h => e₂.blackPres n (e₁.blackPres n h), ?_, ?_, ?_, ?_⟩
  · intro n h
    rcases e₂.scanned n h with h2 | h2
    · exact e₁.scanned n h2
    · right
      rwa [e₁.keys] at h2
  · intro n v h
    rcases e₂.vals n v h with h2 | h2
    · exact e₁.vals n v h2
    · exact Or.inr h2
  · obtain ⟨d₁, h₁⟩ := e₁.cyMono
    obtain ⟨d₂, h₂⟩ := e₂.cyMono
    exact ⟨d₁ ++ d₂, by rw [h₂, h₁, List.append_assoc]⟩
  · intro x hx
    rcases e₂.sound x hx with h2 | h2
    · exact e₁.sound x h2
    · exact Or.inr h2

/-- Appending one sound cycle is an `Evol` step. -/
theorem Evol.record {g : GraphT α} {c : ColorsT α} {cy : List (List α)}
    {x : List α} (hx : IsCycleOf g x ∧ x.Nodup) :
    Evol g c cy c (cy ++ [x]) := by
  refine ⟨rfl, fun _ => Iff.rfl, fun _ h => h, fun _ h => h,
    fun _ h => Or.inl h, fun _ _ h => Or.inl h, ⟨[x], rfl⟩, ?_⟩
  intro y hy
  rw [List.mem_append, List.mem_singleton] at hy
  rcases hy with hy | hy
  · exact Or.inl hy
  · exact Or.inr (hy ▸ hx)

/-- Extending a chain by one edge out of its last element. -/
theorem chain'_concat_of {g : GraphT α} {L : List α} {b : α}
    (hch : List.Chain' (fun a b => b ∈ nbrs g a) L)
    (hlast : ∀ a ∈ L.getLast?, b ∈ nbrs g a) :
    List.Chain' (fun a b => b ∈ nbrs g a) (L ++ [b]) := by
  rw [List.chain'_append]
  refine ⟨hch, List.chain'_singleton b, ?_⟩
  intro x hx y hy
  rw [List.head?_cons, Option.mem_some_iff] at hy
  rw [← hy]
  exact hlast x hx

/-- The neighbour loop of `dfs` is an `Evol` step, and every scanned
neighbour was present in the colour table. -/
theorem dfsScan_evol (g : GraphT α) (fuel : Nat) (path : List α) (node : α)
    (ih : DfsGood g fuel)
    (hnd : (path ++ [node]).Nodup)
    (hch : List.Chain' (fun a b => b ∈ nbrs g a) (path ++ [node])) :
    ∀ ms ci cyi c2 cy2,
      dfsScan (fun m c cy => dfs g fuel m c (path ++ [node]) cy)
        (path ++ [node]) ms ci cyi = some (c2, cy2) →
      (∀ m ∈ ms, m ∈ nbrs g node) →
      GraysPath ci (path ++ [node]) →
      Evol g ci cyi c2 cy2 ∧ ∀ m ∈ ms, m ∈ dictKeys ci := by
  intro ms
  induction ms with
  | nil =>
    intro ci cyi c2 cy2 h _ _
    simp only [dfsScan, Option.some_inj, Prod.mk.injEq] at h
    obtain ⟨h1, h2⟩ := h
    rw [← h1, ← h2]
    exact ⟨Evol.refl, by simp⟩
  | cons m rest ihm =>
    intro ci cyi c2 cy2 h hms hgp
    simp only [dfsScan] at h
    cases hcol : dictFind? ci m with
    | none => rw [hcol] at h; exact absurd h (by simp)
    | some col =>
      simp only [hcol] at h
      have hmkeys : m ∈ dictKeys ci := mem_dictKeys_of_find? hcol
      by_cases hb : col = GRAY ∧ m ∈ path ++ [node]
      · rw [if_pos hb] at h
        have hrec : IsCycleOf g ((path ++ [node]).drop
              (pyIndex (path ++ [node]) m)) ∧
            ((path ++ [node]).drop (pyIndex (path ++ [node]) m)).Nodup := by
          constructor
          · exact recorded_isCycleOf hch (List.getLast?_concat path)
              (hms m (List.mem_cons_self _ _)) hb.2
          · exact hnd.sublist (List.drop_sublist _ _)
        obtain ⟨e2, hk2⟩ := ihm ci _ c2 cy2 h
          (fun x hx => hms x (List.mem_cons_of_mem _ hx)) hgp
        refine ⟨(Evol.record hrec).trans e2, ?_⟩
        intro x hx
        rw [List.mem_cons] at hx
        rcases hx with hx | hx
        · exact hx ▸ hmkeys
        · exact hk2 x hx
      · rw [if_neg hb] at h
        by_cases hw : col = WHITE
        · rw [if_pos hw] at h
          cases hcall : dfs g fuel m ci (path ++ [node]) cyi with
          | none => rw [hcall] at h; exact absurd h (by simp)
          | some st =>
            obtain ⟨cm, cym⟩ := st
            simp only [hcall] at h
            have hwm : dictFind? ci m = some WHITE := by rw [hcol, hw]
            have hmnotin : m ∉ path ++ [node] := by
              intro hin
              have hg := (hgp m).mpr hin
              rw [hwm] at hg
              simp [WHITE, GRAY] at hg
            have hnd2 : ((path ++ [node]) ++ [m]).Nodup := by
              rw [List.nodup_append]
              refine ⟨hnd, List.nodup_singleton m, ?_⟩
              intro a ha hb2
              rw [List.mem_singleton] at hb2
              exact hmnotin (hb2 ▸ ha)
            have hch2 : List.Chain' (fun a b => b ∈ nbrs g a)
                ((path ++ [node]) ++ [m]) := by
              apply chain'_concat_of hch
              intro a ha
              rw [List.getLast?_concat, Option.mem_some_iff] at ha
              rw [← ha]
              exact hms m (List.mem_cons_self _ _)
            obtain ⟨erec, _⟩ :=
              ih m ci (path ++ [node]) cyi cm cym hcall hwm hgp hnd2 hch2
            have hgp2 : GraysPath cm (path ++ [node]) := fun n =>
              (erec.graysEq n).trans (hgp n)
            obtain ⟨e2, hk2⟩ := ihm cm cym c2 cy2 h
              (fun x hx => hms x (List.mem_cons_of_mem _ hx)) hgp2
            refine ⟨erec.trans e2, ?_⟩
            intro x hx
            rw [List.mem_cons] at hx
            rcases hx with hx | hx
            · exact hx ▸ hmkeys
            · rw [← erec.keys]
              exact hk2 x hx
        · rw [if_neg hw] at h
          obtain ⟨e2, hk2⟩ := ihm ci cyi c2 cy2 h
            (fun x hx => hms x (List.mem_cons_of_mem _ hx)) hgp
          refine ⟨e2, ?_⟩
          intro x hx
          rw [List.mem_cons] at hx
          rcases hx with hx | hx
          · exact hx ▸ hmkeys
          · exact hk2 x hx

/-- Main preservation lemma for `dfs`, by induction on the fuel. -/
theorem dfs_evol (g : GraphT α) : ∀ fuel, DfsGood g fuel := by
  intro fuel
  induction fuel with
  | zero =>
    intro node c path cy c' cy' h
    simp [dfs] at h
  | succ fuel ih =>
    intro node c path cy c' cy' h hw hgp hnd hch
    simp only [dfs] at h
    cases hscan : dfsScan (fun m cc cyc => dfs g fuel m cc (path ++ [node]) cyc)
        (path ++ [node]) (nbrs g node) (dictSet c node GRAY) cy with
    | none => rw [hscan] at h; exact absurd h (by simp)
    | some st =>
      obtain ⟨c2, cy2⟩ := st
      rw [hscan] at h
      simp only [Option.some_inj, Prod.mk.injEq] at h
      obtain ⟨hc', hcy'⟩ := h
      have hnodek : node ∈ dictKeys c := mem_dictKeys_of_find? hw
      have hgp1 : GraysPath (dictSet c node GRAY) (path ++ [node]) := by
        intro n
        by_cases hn : n = node
        · subst hn
          rw [dictFind?_dictSet_self]
          simp
        · rw [dictFind?_dictSet_ne _ _ hn]
          rw [hgp n]
          simp [hn]
      obtain ⟨escan, hkeysms⟩ := dfsScan_evol g fuel path node ih hnd hch
        (nbrs g node) (dictSet c node GRAY) cy c2 cy2 hscan
        (fun m hm => hm) hgp1
      have hkeysset : dictKeys (dictSet c node GRAY) = dictKeys c :=
        dictKeys_dictSet hnodek GRAY
      have hkeys2 : dictKeys c2 = dictKeys c := by
        rw [escan.keys, hkeysset]
      have hnodek2 : node ∈ dictKeys c2 := by rw [hkeys2]; exact hnodek
      have hnodegray2 : dictFind? c2 node = some GRAY :=
        (escan.graysEq node).mpr (dictFind?_dictSet_self c node GRAY)
      have hwhite_ne_gray : WHITE ≠ GRAY := by simp [WHITE, GRAY]
      have hwhite_ne_black : WHITE ≠ BLACK := by simp [WHITE, BLACK]
      have hgray_ne_black : GRAY ≠ BLACK := by simp [GRAY, BLACK]
      subst hc' hcy'
      constructor
      · -- the assembled Evol from c to dictSet c2 node BLACK
        refine ⟨?_, ?_, ?_, ?_, ?_, ?_, ?_, ?_⟩
        · rw [dictKeys_dictSet hnodek2 BLACK, hkeys2]
        · intro n
          by_cases hn : n = node
          · subst hn
            rw [dictFind?_dictSet_self, hw]
            constructor
            · intro hh
              exact absurd (Option.some_inj.mp hh).symm hgray_ne_black
            · intro hh
              exact absurd (Option.some_inj.mp hh) hwhite_ne_gray
          · rw [dictFind?_dictSet_ne _ _ hn]
            rw [escan.graysEq n, dictFind?_dictSet_ne _ _ hn]
        · intro n hwh
          by_cases hn : n = node
          · subst hn
            rw [dictFind?_dictSet_self] at hwh
            exact absurd (Option.some_inj.mp hwh).symm hwhite_ne_black
          · rw [dictFind?_dictSet_ne _ _ hn] at hwh
            have := escan.whitePres n hwh
            rwa [dictFind?_dictSet_ne _ _ hn] at this
        · intro n hbl
          by_cases hn : n = node
          · subst hn
            rw [hw] at hbl
            exact absurd (Option.some_inj.mp hbl) hwhite_ne_black
          · rw [dictFind?_dictSet_ne _ _ hn]
            apply escan.blackPres
            rwa [dictFind?_dictSet_ne _ _ hn]
        · intro n hbl
          by_cases hn : n = node
          · subst hn
            right
            intro m hm
            have := hkeysms m hm
            rwa [hkeysset] at this
          · rw [dictFind?_dictSet_ne _ _ hn] at hbl
            rcases escan.scanned n hbl with h2 | h2
            · rw [dictFind?_dictSet_ne _ _ hn] at h2
              exact Or.inl h2
            · rw [hkeysset] at h2
              exact Or.inr h2
        · intro n v hv
          by_cases hn : n = node
          · subst hn
            rw [dictFind?_dictSet_self] at hv
            right; right
            exact (Option.some_inj.mp hv).symm
          · rw [dictFind?_dictSet_ne _ _ hn] at hv
            rcases escan.vals n v hv with h2 | h2
            · rw [dictFind?_dictSet_ne _ _ hn] at h2
              exact Or.inl h2
            · exact Or.inr h2
        · exact escan.cyMono
        · exact escan.sound
      · exact dictFind?_dictSet_self c2 node BLACK

/-! ## Termination: the fuel `|nodes|` is always sufficient

The number of WHITE keys strictly decreases at every recursive `dfs`
call (the node is repainted GRAY before its neighbours are scanned and
never returns to WHITE), so the recursion depth — and hence the fuel
consumed — is bounded by the node count, exactly the bound stated in
the spec. -/

theorem filter_length_mono {l : List α} {p q : α → Bool}
    (h : ∀ a ∈ l, p a = true → q a = true) :
    (l.filter p).length ≤ (l.filter q).length := by
  induction l with
  | nil => simp
  | cons a t ih =>
    have ht : ∀ b ∈ t, p b = true → q b = true :=
      fun b hb => h b (List.mem_cons_of_mem _ hb)
    cases hp : p a
    · rw [List.filter_cons_of_neg (by simp [hp])]
      cases hq : q a
      · rw [List.filter_cons_of_neg (by simp [hq])]
        exact ih ht
      · rw [List.filter_cons_of_pos (by simp [hq])]
        exact Nat.le_succ_of_le (ih ht)
    · rw [List.filter_cons_of_pos (by simp [hp]),
        List.filter_cons_of_pos (by simp [h a (List.mem_cons_self _ _) hp])]
      exact Nat.succ_le_succ (ih ht)

theorem filter_length_update {l : List α} {x : α} (hl : l.Nodup) (hx : x ∈ l)
    {p q : α → Bool} (hqp : ∀ y ∈ l, y ≠ x → q y = p y)
    (hpx : p x = true) (hqx : q x = false) :
    (l.filter q).length + 1 = (l.filter p).length := by
  induction l with
  | nil => simp at hx
  | cons a t ih =>
    rw [List.nodup_cons] at hl
    rw [List.mem_cons] at hx
    by_cases hax : a = x
    · subst hax
      rw [List.filter_cons_of_neg (by simp [hqx]),
        List.filter_cons_of_pos (by simp [hpx])]
      have hqp2 : ∀ y ∈ t, q y = p y := by
        intro y hy
        refine hqp y (List.mem_cons_of_mem _ hy) ?_
        intro he
        exact hl.1 (he ▸ hy)
      rw [List.filter_congr hqp2, List.length_cons]
    · rcases hx with hx | hx
      · exact absurd hx.symm hax
      · have hqa : q a = p a := hqp a (List.mem_cons_self _ _) hax
        have ht : ∀ y ∈ t, y ≠ x → q y = p y :=
          fun y hy => hqp y (List.mem_cons_of_mem _ hy)
        cases hp : p a
        · rw [List.filter_cons_of_neg (by simp [hqa, hp]),
            List.filter_cons_of_neg (by simp [hp])]
          exact ih hl.2 hx ht
        · rw [List.filter_cons_of_pos (by simp [hqa, hp]),
            List.filter_cons_of_pos (by simp [hp])]
          simp only [List.length_cons]
          have := ih hl.2 hx ht
          omega

theorem whiteKeys_pos {c : ColorsT α} {node : α}
    (hw : dictFind? c node = some WHITE) : 1 ≤ whiteKeys c := by
  rw [whiteKeys]
  have hmem : node ∈ (dictKeys c).filter
      (fun n => decide (dictFind? c n = some WHITE)) := by
    rw [List.mem_filter]
    exact ⟨mem_dictKeys_of_find? hw, by simp [hw]⟩
  exact List.length_pos.mpr (fun he => by rw [he] at hmem; simp at hmem)

theorem whiteKeys_le_length (c : ColorsT α) :
    whiteKeys c ≤ (dictKeys c).length :=
  List.length_filter_le _ _

theorem whiteKeys_mono {g : GraphT α} {c c' : ColorsT α}
    {cy cy' : List (List α)} (e : Evol g c cy c' cy') :
    whiteKeys c' ≤ whiteKeys c := by
  rw [whiteKeys, whiteKeys, e.keys]
  exact filter_length_mono (by
    intro a _ ha
    simp only [decide_eq_true_eq] at ha ⊢
    exact e.whitePres a ha)

theorem whiteKeys_set_gray {c : ColorsT α} {node : α}
    (hnd : (dictKeys c).Nodup) (hw : dictFind? c node = some WHITE) :
    whiteKeys (dictSet c node GRAY) + 1 = whiteKeys c := by
  have hk : node ∈ dictKeys c := mem_dictKeys_of_find? hw
  rw [whiteKeys, whiteKeys, dictKeys_dictSet hk GRAY]
  apply filter_length_update hnd hk
  · intro y _ hy
    rw [dictFind?_dictSet_ne _ _ hy]
  · simp [hw]
  · rw [dictFind?_dictSet_self]
    simp [WHITE, GRAY]

theorem dfs_term (g : GraphT α) : ∀ fuel, DfsTerm g fuel := by
  intro fuel
  induction fuel with
  | zero =>
    intro node c path cy _ _ _ hw _ _ _ hfuel
    exact absurd (Nat.le_trans (whiteKeys_pos hw) hfuel) (by simp)
  | succ fuel ih =>
    intro node c path cy hcl hwf hkeys hw hgp hnd hch hfuel
    simp only [dfs]
    have hkeysnd : (dictKeys c).Nodup := hkeys ▸ hwf
    have hwk1 : whiteKeys (dictSet c node GRAY) + 1 = whiteKeys c :=
      whiteKeys_set_gray hkeysnd hw
    have hnodek : node ∈ dictKeys c := mem_dictKeys_of_find? hw
    have hgp1 : GraysPath (dictSet c node GRAY) (path ++ [node]) := by
      intro n
      by_cases hn : n = node
      · subst hn
        rw [dictFind?_dictSet_self]
        simp
      · rw [dictFind?_dictSet_ne _ _ hn, hgp n]
        simp [hn]
    have hkeysset : dictKeys (dictSet c node GRAY) = dictKeys g := by
      rw [dictKeys_dictSet hnodek GRAY, hkeys]
    -- the scan terminates from any sufficiently white-poor state
    have hscan : ∀ ms ci cyi, (∀ m ∈ ms, m ∈ nbrs g node) →
        dictKeys ci = dictKeys g → GraysPath ci (path ++ [node]) →
        whiteKeys ci ≤ fuel →
        (dfsScan (fun m cc cyc => dfs g fuel m cc (path ++ [node]) cyc)
          (path ++ [node]) ms ci cyi).isSome := by
      intro ms
      induction ms with
      | nil => intro ci cyi _ _ _ _; simp [dfsScan]
      | cons m rest ihm =>
        intro ci cyi hms hk hgpi hwk
        have hmg : m ∈ dictKeys g :=
          closed_nbrs_sub hcl (hms m (List.mem_cons_self _ _))
        have hmc : m ∈ dictKeys ci := hk ▸ hmg
        rw [← dictFind?_isSome_iff] at hmc
        cases hcol : dictFind? ci m with
        | none => rw [hcol] at hmc; simp at hmc
        | some col =>
          simp only [dfsScan, hcol]
          by_cases hb : col = GRAY ∧ m ∈ path ++ [node]
          · rw [if_pos hb]
            exact ihm ci _ (fun x hx => hms x (List.mem_cons_of_mem _ hx))
              hk hgpi hwk
          · rw [if_neg hb]
            by_cases hwcol : col = WHITE
            · rw [if_pos hwcol]
              have hwm : dictFind? ci m = some WHITE := by rw [hcol, hwcol]
              have hmnotin : m ∉ path ++ [node] := by
                intro hin
                have hg := (hgpi m).mpr hin
                rw [hwm] at hg
                simp [WHITE, GRAY] at hg
              have hnd2 : ((path ++ [node]) ++ [m]).Nodup := by
                rw [List.nodup_append]
                refine ⟨hnd, List.nodup_singleton m, ?_⟩
                intro a ha hb2
                rw [List.mem_singleton] at hb2
                exact hmnotin (hb2 ▸ ha)
              have hch2 : List.Chain' (fun a b => b ∈ nbrs g a)
                  ((path ++ [node]) ++ [m]) := by
                apply chain'_concat_of hch
                intro a ha
                rw [List.getLast?_concat, Option.mem_some_iff] at ha
                rw [← ha]
                exact hms m (List.mem_cons_self _ _)
              have hsub := ih m ci (path ++ [node]) cyi hcl hwf hk hwm
                hgpi hnd2 hch2 hwk
              cases hcall : dfs g fuel m ci (path ++ [node]) cyi with
              | none => rw [hcall] at hsub; simp at hsub
              | some st =>
                obtain ⟨cm, cym⟩ := st
                simp only [hcall]
                obtain ⟨erec, _⟩ := dfs_evol g fuel m ci (path ++ [node]) cyi
                  cm cym hcall hwm hgpi hnd2 hch2
                apply ihm cm cym (fun x hx => hms x (List.mem_cons_of_mem _ hx))
                · rw [erec.keys, hk]
                · exact fun n => (erec.graysEq n).trans (hgpi n)
                · exact Nat.le_trans (whiteKeys_mono erec) hwk
            · rw [if_neg hwcol]
              exact ihm ci cyi (fun x hx => hms x (List.mem_cons_of_mem _ hx))
                hk hgpi hwk
    have := hscan (nbrs g node) (dictSet c node GRAY) cy (fun m hm => hm)
      hkeysset hgp1 (by omega)
    cases hres : dfsScan (fun m cc cyc => dfs g fuel m cc (path ++ [node]) cyc)
        (path ++ [node]) (nbrs g node) (dictSet c node GRAY) cy with
    | none => rw [hres] at this; simp at this
    | some st =>
      obtain ⟨c2, cy2⟩ := st
      simp [hres]

/-! ## The driver loop and `find_all_cycles` -/

/-- A successful driver run is an `Evol` step that leaves no GRAY
node, keeps colours in range, and paints every listed root BLACK. -/
theorem dfsDriver_post (g : GraphT α) (fuel : Nat) :
    ∀ roots c cy c' cy',
      dfsDriver g fuel roots c cy = some (c', cy') →
      GraysPath c [] → AllVals c →
      Evol g c cy c' cy' ∧ GraysPath c' [] ∧ AllVals c' ∧
        ∀ r ∈ roots, dictFind? c' r = some BLACK := by
  intro roots
  induction roots with
  | nil =>
    intro c cy c' cy' h hgp hav
    simp only [dfsDriver, Option.some_inj, Prod.mk.injEq] at h
    obtain ⟨h1, h2⟩ := h
    rw [← h1, ← h2]
    exact ⟨Evol.refl, hgp, hav, by simp⟩
  | cons r rest ih =>
    intro c cy c' cy' h hgp hav
    simp only [dfsDriver] at h
    cases hcol : dictFind? c r with
    | none => rw [hcol] at h; exact absurd h (by simp)
    | some col =>
      simp only [hcol] at h
      by_cases hw : col = WHITE
      · rw [if_pos hw] at h
        cases hcall : dfs g fuel r c [] cy with
        | none => rw [hcall] at h; exact absurd h (by simp)
        | some st =>
          obtain ⟨c2, cy2⟩ := st
          simp only [hcall] at h
          have hwr : dictFind? c r = some WHITE := by rw [hcol, hw]
          obtain ⟨e1, hblack⟩ := dfs_evol g fuel r c [] cy c2 cy2 hcall hwr
            hgp (by simp) (List.chain'_singleton r)
          have hgp2 : GraysPath c2 [] := fun n =>
            (e1.graysEq n).trans (hgp n)
          have hav2 : AllVals c2 := by
            intro n v hv
            rcases e1.vals n v hv with h2 | h2
            · exact hav n v h2
            · rcases h2 with h2 | h2
              · exact Or.inr (Or.inl h2)
              · exact Or.inr (Or.inr h2)
          obtain ⟨e2, hgp3, hav3, hblacks⟩ := ih c2 cy2 c' cy' h hgp2 hav2
          refine ⟨e1.trans e2, hgp3, hav3, ?_⟩
          intro x hx
          rw [List.mem_cons] at hx
          rcases hx with hx | hx
          · exact hx ▸ e2.blackPres r hblack
          · exact hblacks x hx
      · rw [if_neg hw] at h
        obtain ⟨e2, hgp3, hav3, hblacks⟩ := ih c cy c' cy' h hgp hav
        refine ⟨e2, hgp3, hav3, ?_⟩
        intro x hx
        rw [List.mem_cons] at hx
        rcases hx with hx | hx
        · subst hx
          rcases hav x col hcol with hc | hc | hc
          · exact absurd hc hw
          · have := (hgp x).mp (by rw [hcol, hc])
            simp at this
          · exact e2.blackPres x (by rw [hcol, hc])
        · exact hblacks x hx

/-- With the closure invariant, the driver never runs out of fuel nor
hits a missing key. -/
theorem dfsDriver_term (g : GraphT α) (hcl : Closed g) (hwf : WFg g) :
    ∀ roots c cy, dictKeys c = dictKeys g → GraysPath c [] →
      (∀ r ∈ roots, r ∈ dictKeys g) →
      (dfsDriver g (dictKeys g).length roots c cy).isSome := by
  intro roots
  induction roots with
  | nil => intro c cy _ _ _; simp [dfsDriver]
  | cons r rest ih =>
    intro c cy hkeys hgp hroots
    have hrc : r ∈ dictKeys c := hkeys ▸ hroots r (List.mem_cons_self _ _)
    rw [← dictFind?_isSome_iff] at hrc
    cases hcol : dictFind? c r with
    | none => rw [hcol] at hrc; simp at hrc
    | some col =>
      simp only [dfsDriver, hcol]
      by_cases hw : col = WHITE
      · rw [if_pos hw]
        have hwr : dictFind? c r = some WHITE := by rw [hcol, hw]
        have hterm := dfs_term g (dictKeys g).length r c [] cy hcl hwf hkeys
          hwr hgp (by simp) (List.chain'_singleton r)
          (Nat.le_trans (whiteKeys_le_length c) (by rw [hkeys]))
        cases hcall : dfs g (dictKeys g).length r c [] cy with
        | none => rw [hcall] at hterm; simp at hterm
        | some st =>
          obtain ⟨c2, cy2⟩ := st
          simp only [hcall]
          obtain ⟨e1, _⟩ := dfs_evol g (dictKeys g).length r c [] cy c2 cy2
            hcall hwr hgp (by simp) (List.chain'_singleton r)
          apply ih c2 cy2
          · rw [e1.keys, hkeys]
          · exact fun n => (e1.graysEq n).trans (hgp n)
          · exact fun x hx => hroots x (List.mem_cons_of_mem _ hx)
      · rw [if_neg hw]
        exact ih c cy hkeys hgp (fun x hx => hroots x (List.mem_cons_of_mem _ hx))

/-- The initial colour table maps every node of the graph to WHITE. -/
theorem dictFind?_init_white (g : GraphT α) (n : α) :
    dictFind? (g.map (fun p => (p.1, WHITE))) n =
      (dictFind? g n).map (fun _ => WHITE) := by
  induction g with
  | nil => rfl
  | cons p t ih =>
    by_cases hp : p.1 = n <;> simp [dictFind?_cons, hp, ih]

theorem dictKeys_init (g : GraphT α) :
    dictKeys (g.map (fun p => (p.1, WHITE))) = dictKeys g := by
  simp [dictKeys, List.map_map]

theorem init_graysPath (g : GraphT α) :
    GraysPath (g.map (fun p => (p.1, WHITE))) [] := by
  intro n
  rw [dictFind?_init_white]
  constructor
  · intro h
    cases hf : dictFind? g n <;> rw [hf] at h <;> simp [WHITE, GRAY] at h
  · intro h
    simp at h

theorem init_allVals (g : GraphT α) :
    AllVals (g.map (fun p => (p.1, WHITE))) := by
  intro n v h
  rw [dictFind?_init_white] at h
  cases hf : dictFind? g n <;> rw [hf] at h <;> simp at h
  exact Or.inl h.symm

/-- With the closure invariant (and well-formed keys), `find_all_cycles`
returns a result. -/
theorem find_all_cycles_isSome {g : GraphT α} (hwf : WFg g)
    (hcl : Closed g) : (find_all_cycles g).isSome := by
  rw [find_all_cycles]
  have hterm := dfsDriver_term g hcl hwf (dictKeys g)
    (g.map (fun p => (p.1, WHITE))) [] (dictKeys_init g) (init_graysPath g)
    (fun r hr => hr)
  cases hres : dfsDriver g (dictKeys g).length (dictKeys g)
      (g.map (fun p => (p.1, WHITE))) [] with
  | none => rw [hres] at hterm; simp at hterm
  | some st =>
    obtain ⟨c2, cy2⟩ := st
    simp [hres]

/-- Everything a successful `find_all_cycles` run guarantees: every
recorded entry is a genuine duplicate-free cycle, and every node of the
graph ended up BLACK with all its neighbours having been present in the
colour table — hence the graph was closed. -/
theorem find_all_cycles_post {g : GraphT α} {out : List (List α)}
    (h : find_all_cycles g = some out) :
    (∀ x ∈ out, IsCycleOf g x ∧ x.Nodup) ∧
      ∀ n ∈ dictKeys g, ∀ m ∈ nbrs g n, m ∈ dictKeys g := by
  rw [find_all_cycles] at h
  cases hres : dfsDriver g (dictKeys g).length (dictKeys g)
      (g.map (fun p => (p.1, WHITE))) [] with
  | none => rw [hres] at h; exact absurd h (by simp)
  | some st =>
    obtain ⟨cF, cyF⟩ := st
    rw [hres] at h
    simp only [Option.some_inj] at h
    obtain ⟨e, _, _, hblacks⟩ := dfsDriver_post g (dictKeys g).length
      (dictKeys g) (g.map (fun p => (p.1, WHITE))) [] cF cyF hres
      (init_graysPath g) (init_allVals g)
    constructor
    · intro x hx
      rcases e.sound x (h ▸ hx) with h2 | h2
      · simp at h2
      · exact h2
    · intro n hn m hm
      have hb := hblacks n hn
      rcases e.scanned n hb with h2 | h2
      · rw [dictFind?_init_white] at h2
        cases hf : dictFind? g n <;> rw [hf] at h2 <;>
          simp [WHITE, BLACK] at h2
      · rw [dictKeys_init] at h2
        exact h2 m hm

/-! ## Detection-completeness: a run that records no cycle certifies
that the graph has none.

`GoodB` and `NoBlackCycle` together with "all nodes BLACK at the end"
refute the existence of any cycle when the run recorded none. -/

theorem dfs_nc (g : GraphT α) : ∀ fuel, DfsNC g fuel := by
  intro fuel
  induction fuel with
  | zero =>
    intro node c path cy c' cy' h
    simp [dfs] at h
  | succ fuel ih =>
    intro node c path cy c' cy' h hnog hw hgp hnd hch hav hgb hnbc
    simp only [dfs] at h
    cases hscan : dfsScan (fun m cc cyc => dfs g fuel m cc (path ++ [node]) cyc)
        (path ++ [node]) (nbrs g node) (dictSet c node GRAY) cy with
    | none => rw [hscan] at h; exact absurd h (by simp)
    | some st =>
      obtain ⟨c2, cy2⟩ := st
      rw [hscan] at h
      simp only [Option.some_inj, Prod.mk.injEq] at h
      obtain ⟨hc', hcy'⟩ := h
      have hnodek : node ∈ dictKeys c := mem_dictKeys_of_find? hw
      have hgp1 : GraysPath (dictSet c node GRAY) (path ++ [node]) := by
        intro n
        by_cases hn : n = node
        · subst hn
          rw [dictFind?_dictSet_self]
          simp
        · rw [dictFind?_dictSet_ne _ _ hn, hgp n]
          simp [hn]
      have hav1 : AllVals (dictSet c node GRAY) := by
        intro n v hv
        by_cases hn : n = node
        · subst hn
          rw [dictFind?_dictSet_self] at hv
          exact Or.inr (Or.inl (Option.some_inj.mp hv).symm)
        · rw [dictFind?_dictSet_ne _ _ hn] at hv
          exact hav n v hv
      have hgb1 : GoodB g (dictSet c node GRAY) := by
        intro n hb m hm
        by_cases hn : n = node
        · subst hn
          rw [dictFind?_dictSet_self] at hb
          exact absurd (Option.some_inj.mp hb) (by simp [GRAY, BLACK])
        · rw [dictFind?_dictSet_ne _ _ hn] at hb
          have hb2 := hgb n hb m hm
          by_cases hmn : m = node
          · rw [hmn, hw] at hb2
            exact absurd (Option.some_inj.mp hb2) (by simp [WHITE, BLACK])
          · rwa [dictFind?_dictSet_ne _ _ hmn]
      have hnbc1 : NoBlackCycle g (dictSet c node GRAY) := by
        rintro ⟨K, hK, hKb⟩
        apply hnbc
        refine ⟨K, hK, ?_⟩
        intro n hn
        have hb := hKb n hn
        by_cases hnn : n = node
        · subst hnn
          rw [dictFind?_dictSet_self] at hb
          exact absurd (Option.some_inj.mp hb) (by simp [GRAY, BLACK])
        · rwa [dictFind?_dictSet_ne _ _ hnn] at hb
      -- the scan-level invariant
      have hscanlem : ∀ ms ci cyi c2x cy2x,
          dfsScan (fun m cc cyc => dfs g fuel m cc (path ++ [node]) cyc)
            (path ++ [node]) ms ci cyi = some (c2x, cy2x) →
          cy2x = cyi →
          (∀ m ∈ ms, m ∈ nbrs g node) →
          GraysPath ci (path ++ [node]) → AllVals ci →
          GoodB g ci → NoBlackCycle g ci →
          GoodB g c2x ∧ NoBlackCycle g c2x ∧ GraysPath c2x (path ++ [node]) ∧
            AllVals c2x ∧ ∀ m ∈ ms, dictFind? c2x m = some BLACK := by
        intro ms
        induction ms with
        | nil =>
          intro ci cyi c2x cy2x hs _ _ hgpi havi hgbi hnbci
          simp only [dfsScan, Option.some_inj, Prod.mk.injEq] at hs
          obtain ⟨h1, _⟩ := hs
          rw [← h1]
          exact ⟨hgbi, hnbci, hgpi, havi, by simp⟩
        | cons m rest ihm =>
          intro ci cyi c2x cy2x hs hnogs hms hgpi havi hgbi hnbci
          simp only [dfsScan] at hs
          cases hcol : dictFind? ci m with
          | none => rw [hcol] at hs; exact absurd hs (by simp)
          | some col =>
            simp only [hcol] at hs
            by_cases hb : col = GRAY ∧ m ∈ path ++ [node]
            · -- a cycle would be recorded: impossible in a recording-free run
              rw [if_pos hb] at hs
              obtain ⟨e2, _⟩ := dfsScan_evol g fuel path node (dfs_evol g fuel)
                hnd hch rest ci _ c2x cy2x hs
                (fun x hx => hms x (List.mem_cons_of_mem _ hx)) hgpi
              obtain ⟨δ, hδ⟩ := e2.cyMono
              rw [hnogs] at hδ
              have := congrArg List.length hδ
              simp at this
            · rw [if_neg hb] at hs
              by_cases hwcol : col = WHITE
              · rw [if_pos hwcol] at hs
                cases hcall : dfs g fuel m ci (path ++ [node]) cyi with
                | none => rw [hcall] at hs; exact absurd hs (by simp)
                | some stm =>
                  obtain ⟨cm, cym⟩ := stm
                  simp only [hcall] at hs
                  have hwm : dictFind? ci m = some WHITE := by rw [hcol, hwcol]
                  have hmnotin : m ∉ path ++ [node] := by
                    intro hin
                    have hg := (hgpi m).mpr hin
                    rw [hwm] at hg
                    simp [WHITE, GRAY] at hg
                  have hnd2 : ((path ++ [node]) ++ [m]).Nodup := by
                    rw [List.nodup_append]
                    refine ⟨hnd, List.nodup_singleton m, ?_⟩
                    intro a ha hb2
                    rw [List.mem_singleton] at hb2
                    exact hmnotin (hb2 ▸ ha)
                  have hch2 : List.Chain' (fun a b => b ∈ nbrs g a)
                      ((path ++ [node]) ++ [m]) := by
                    apply chain'_concat_of hch
                    intro a ha
                    rw [List.getLast?_concat, Option.mem_some_iff] at ha
                    rw [← ha]
                    exact hms m (List.mem_cons_self _ _)
                  obtain ⟨em, hblackm⟩ := dfs_evol g fuel m ci (path ++ [node])
                    cyi cm cym hcall hwm hgpi hnd2 hch2
                  obtain ⟨e2, _⟩ := dfsScan_evol g fuel path node
                    (dfs_evol g fuel) hnd hch rest cm cym c2x cy2x hs
                    (fun x hx => hms x (List.mem_cons_of_mem _ hx))
                    (fun n => (em.graysEq n).trans (hgpi n))
                  -- both cycle deltas are empty
                  obtain ⟨δ1, hδ1⟩ := em.cyMono
                  obtain ⟨δ2, hδ2⟩ := e2.cyMono
                  have hδ1nil : cym = cyi := by
                    rw [hδ1] at hδ2
                    rw [hδ2, List.append_assoc] at hnogs
                    have := congrArg List.length hnogs
                    simp at this
                    rw [hδ1]
                    rw [this.1]
                    simp
                  obtain ⟨hgbm, hnbcm⟩ := ih m ci (path ++ [node]) cyi cm cym
                    hcall hδ1nil hwm hgpi hnd2 hch2 havi hgbi hnbci
                  have havm : AllVals cm := by
                    intro n v hv
                    rcases em.vals n v hv with h2 | h2
                    · exact havi n v h2
                    · rcases h2 with h2 | h2
                      · exact Or.inr (Or.inl h2)
                      · exact Or.inr (Or.inr h2)
                  have hnogs2 : cy2x = cym := by
                    rw [hδ1nil, hnogs]
                  obtain ⟨hgb2, hnbc2, hgp2, hav2, hbl2⟩ := ihm cm cym c2x cy2x
                    hs hnogs2 (fun x hx => hms x (List.mem_cons_of_mem _ hx))
                    (fun n => (em.graysEq n).trans (hgpi n)) havm hgbm hnbcm
                  refine ⟨hgb2, hnbc2, hgp2, hav2, ?_⟩
                  intro x hx
                  rw [List.mem_cons] at hx
                  rcases hx with hx | hx
                  · exact hx ▸ e2.blackPres m hblackm
                  · exact hbl2 x hx
              · -- the neighbour is neither WHITE nor GRAY-on-path: it is BLACK
                rw [if_neg hwcol] at hs
                have hcolb : col = BLACK := by
                  rcases havi m col hcol with hc | hc | hc
                  · exact absurd hc hwcol
                  · exfalso
                    apply hb
                    refine ⟨hc, ?_⟩
                    exact (hgpi m).mp (by rw [hcol, hc])
                  · exact hc
                obtain ⟨hgb2, hnbc2, hgp2, hav2, hbl2⟩ := ihm ci cyi c2x cy2x
                  hs hnogs (fun x hx => hms x (List.mem_cons_of_mem _ hx))
                  hgpi havi hgbi hnbci
                refine ⟨hgb2, hnbc2, hgp2, hav2, ?_⟩
                intro x hx
                rw [List.mem_cons] at hx
                rcases hx with hx | hx
                · obtain ⟨e2, _⟩ := dfsScan_evol g fuel path node
                    (dfs_evol g fuel) hnd hch rest ci cyi c2x cy2x hs
                    (fun y hy => hms y (List.mem_cons_of_mem _ hy)) hgpi
                  exact hx ▸ e2.blackPres m (by rw [hcol, hcolb])
                · exact hbl2 x hx
      obtain ⟨hgb2, hnbc2, hgp2, _, hbl2⟩ := hscanlem (nbrs g node)
        (dictSet c node GRAY) cy c2 cy2 hscan (hcy' ▸ hnog)
        (fun m hm => hm) hgp1 hav1 hgb1 hnbc1
      subst hc'
      have hnodegray2 : dictFind? c2 node = some GRAY :=
        (hgp2 node).mpr (by simp)
      constructor
      · -- GoodB after painting the node BLACK
        intro n hb m hm
        have hblackc' : ∀ x, dictFind? c2 x = some BLACK →
            dictFind? (dictSet c2 node BLACK) x = some BLACK := by
          intro x hx
          by_cases hxn : x = node
          · subst hxn
            rw [dictFind?_dictSet_self]
          · rwa [dictFind?_dictSet_ne _ _ hxn]
        by_cases hn : n = node
        · subst hn
          exact hblackc' m (hbl2 m hm)
        · rw [dictFind?_dictSet_ne _ _ hn] at hb
          exact hblackc' m (hgb2 n hb m hm)
      · -- no all-BLACK cycle after painting the node BLACK
        rintro ⟨K, hK, hKb⟩
        by_cases hnode : node ∈ K
        · obtain ⟨w, hwK, hwn⟩ := cycle_pred hK node hnode
          by_cases hwnode : w = node
          · -- a self-loop on the node would have been recorded
            rw [hwnode] at hwn
            have := hbl2 node hwn
            rw [hnodegray2] at this
            exact absurd (Option.some_inj.mp this) (by simp [GRAY, BLACK])
          · have hwb := hKb w hwK
            rw [dictFind?_dictSet_ne _ _ hwnode] at hwb
            have := hgb2 w hwb node hwn
            rw [hnodegray2] at this
            exact absurd (Option.some_inj.mp this) (by simp [GRAY, BLACK])
        · apply hnbc2
          refine ⟨K, hK, ?_⟩
          intro n hn
          have hb := hKb n hn
          have hnn : n ≠ node := fun he => hnode (he ▸ hn)
          rwa [dictFind?_dictSet_ne _ _ hnn] at hb

/-- Driver-level: a recording-free successful run preserves
`NoBlackCycle`. -/
theorem dfsDriver_nc (g : GraphT α) (fuel : Nat) :
    ∀ roots c cy c' cy',
      dfsDriver g fuel roots c cy = some (c', cy') → cy' = cy →
      GraysPath c [] → AllVals c → GoodB g c → NoBlackCycle g c →
      NoBlackCycle g c' := by
  intro roots
  induction roots with
  | nil =>
    intro c cy c' cy' h _ _ _ _ hnbc
    simp only [dfsDriver, Option.some_inj, Prod.mk.injEq] at h
    rw [← h.1]
    exact hnbc
  | cons r rest ih =>
    intro c cy c' cy' h hnog hgp hav hgb hnbc
    simp only [dfsDriver] at h
    cases hcol : dictFind? c r with
    | none => rw [hcol] at h; exact absurd h (by simp)
    | some col =>
      simp only [hcol] at h
      by_cases hw : col = WHITE
      · rw [if_pos hw] at h
        cases hcall : dfs g fuel r c [] cy with
        | none => rw [hcall] at h; exact absurd h (by simp)
        | some st =>
          obtain ⟨c2, cy2⟩ := st
          simp only [hcall] at h
          have hwr : dictFind? c r = some WHITE := by rw [hcol, hw]
          obtain ⟨e1, _⟩ := dfs_evol g fuel r c [] cy c2 cy2 hcall hwr
            hgp (by simp) (List.chain'_singleton r)
          have hgp2 : GraysPath c2 [] := fun n =>
            (e1.graysEq n).trans (hgp n)
          have hav2 : AllVals c2 := by
            intro n v hv
            rcases e1.vals n v hv with h2 | h2
            · exact hav n v h2
            · rcases h2 with h2 | h2
              · exact Or.inr (Or.inl h2)
              · exact Or.inr (Or.inr h2)
          obtain ⟨e2, _, _, _⟩ := dfsDriver_post g fuel rest c2 cy2 c' cy'
            h hgp2 hav2
          obtain ⟨δ1, hδ1⟩ := e1.cyMono
          obtain ⟨δ2, hδ2⟩ := e2.cyMono
          have hδ1nil : cy2 = cy := by
            rw [hδ1] at hδ2
            rw [hδ2, List.append_assoc] at hnog
            have := congrArg List.length hnog
            simp at this
            rw [hδ1, this.1]
            simp
          obtain ⟨hgb2, hnbc2⟩ := dfs_nc g fuel r c [] cy c2 cy2 hcall hδ1nil
            hwr hgp (by simp) (List.chain'_singleton r) hav hgb hnbc
          exact ih c2 cy2 c' cy' h (by rw [hnog, hδ1nil]) hgp2 hav2 hgb2 hnbc2
      · rw [if_neg hw] at h
        exact ih c cy c' cy' h hnog hgp hav hgb hnbc

/-- The initial colour table has no BLACK node, hence `GoodB` and
`NoBlackCycle` hold at the start. -/
theorem init_no_black (g : GraphT α) (n : α) :
    dictFind? (g.map (fun p => (p.1, WHITE))) n ≠ some BLACK := by
  rw [dictFind?_init_white]
  cases hf : dictFind? g n <;> simp [WHITE, BLACK]

/-- A run of `find_all_cycles` that returns the empty list certifies
the absence of any cycle (when the graph is closed and well formed the
run does return; the emptiness hypothesis is what carries the
information). -/
theorem find_all_cycles_empty_no_cycle {g : GraphT α}
    (h : find_all_cycles g = some []) : ¬ ∃ K, IsCycleOf g K := by
  rintro ⟨K, hK⟩
  rw [find_all_cycles] at h
  cases hres : dfsDriver g (dictKeys g).length (dictKeys g)
      (g.map (fun p => (p.1, WHITE))) [] with
  | none => rw [hres] at h; exact absurd h (by simp)
  | some st =>
    obtain ⟨cF, cyF⟩ := st
    rw [hres] at h
    simp only [Option.some_inj] at h
    subst h
    have hnbcF := dfsDriver_nc g (dictKeys g).length (dictKeys g)
      (g.map (fun p => (p.1, WHITE))) [] cF [] hres rfl
      (init_graysPath g) (init_allVals g)
      (fun n hb => absurd hb (init_no_black g n))
      (by
        rintro ⟨K2, hK2, hK2b⟩
        cases K2 with
        | nil => exact hK2
        | cons a t =>
          exact init_no_black g a (hK2b a (List.mem_cons_self _ _)))
    obtain ⟨_, _, _, hblacks⟩ := dfsDriver_post g (dictKeys g).length
      (dictKeys g) (g.map (fun p => (p.1, WHITE))) [] cF [] hres
      (init_graysPath g) (init_allVals g)
    apply hnbcF
    refine ⟨K, hK, ?_⟩
    intro n hn
    apply hblacks
    exact nbrs_ne_nil_mem_keys (cycle_nbrs_ne_nil hK n hn)

end DictDfs

/-! ## Deduplication: canonical keys and rotation classes -/

section Dedup

variable [LinearOrder α]

theorem foldl_min_le_init : ∀ (xs : List α) (a : α), xs.foldl min a ≤ a := by
  intro xs
  induction xs with
  | nil => intro a; exact le_refl a
  | cons x t ih =>
    intro a
    exact le_trans (ih (min a x)) (min_le_left a x)

theorem foldl_min_mem : ∀ (xs : List α) (a : α),
    xs.foldl min a = a ∨ xs.foldl min a ∈ xs := by
  intro xs
  induction xs with
  | nil => intro a; exact Or.inl rfl
  | cons x t ih =>
    intro a
    rcases ih (min a x) with h | h
    · rcases min_choice a x with hm | hm
      · exact Or.inl (by rw [List.foldl_cons, h, hm])
      · refine Or.inr ?_
        rw [List.foldl_cons, h, hm]
        exact List.mem_cons_self x t
    · exact Or.inr (List.mem_cons_of_mem _ h)

theorem foldl_min_le : ∀ (xs : List α) (a y : α), y ∈ xs →
    xs.foldl min a ≤ y := by
  intro xs
  induction xs with
  | nil => intro a y hy; simp at hy
  | cons x t ih =>
    intro a y hy
    rw [List.mem_cons] at hy
    rcases hy with hy | hy
    · subst hy
      exact le_trans (foldl_min_le_init t (min a y)) (min_le_right a y)
    · exact ih (min a x) y hy

theorem pyMin_mem {l : List α} {m : α} (h : pyMin l = some m) : m ∈ l := by
  cases l with
  | nil => simp [pyMin] at h
  | cons x t =>
    simp only [pyMin, Option.some_inj] at h
    rcases foldl_min_mem t x with h2 | h2
    · rw [h] at h2
      exact h2 ▸ List.mem_cons_self _ _
    · exact List.mem_cons_of_mem _ (h ▸ h2)

theorem pyMin_le {l : List α} {m : α} (h : pyMin l = some m) :
    ∀ y ∈ l, m ≤ y := by
  cases l with
  | nil => simp [pyMin] at h
  | cons x t =>
    simp only [pyMin, Option.some_inj] at h
    intro y hy
    rw [List.mem_cons] at hy
    rcases hy with hy | hy
    · exact h ▸ hy ▸ foldl_min_le_init t x
    · exact h ▸ foldl_min_le t x y hy

theorem pyMin_eq_none_iff {l : List α} : pyMin l = none ↔ l = [] := by
  cases l <;> simp [pyMin]

theorem pyMin_perm {l₁ l₂ : List α} (h : l₁.Perm l₂) :
    pyMin l₁ = pyMin l₂ := by
  cases h1 : pyMin l₁ with
  | none =>
    rw [pyMin_eq_none_iff] at h1
    subst h1
    rw [h.symm.eq_nil]
    rfl
  | some m₁ =>
    cases h2 : pyMin l₂ with
    | none =>
      rw [pyMin_eq_none_iff] at h2
      subst h2
      rw [h.eq_nil] at h1
      simp [pyMin] at h1
    | some m₂ =>
      have hm1 : m₁ ∈ l₂ := h.mem_iff.mp (pyMin_mem h1)
      have hm2 : m₂ ∈ l₁ := h.mem_iff.mpr (pyMin_mem h2)
      have hle1 : m₂ ≤ m₁ := pyMin_le h2 m₁ hm1
      have hle2 : m₁ ≤ m₂ := pyMin_le h1 m₂ hm2
      rw [le_antisymm hle2 hle1]

theorem canonKey_eq_none_iff {c : List α} : canonKey c = none ↔ c = [] := by
  rw [canonKey]
  cases h : pyMin c with
  | none =>
    have hc : c = [] := pyMin_eq_none_iff.mp h
    simp [hc]
  | some m =>
    have hc : c ≠ [] := by
      intro he
      rw [he] at h
      simp [pyMin] at h
    simp [hc]

theorem canonKey_spec {c k : List α} (h : canonKey c = some k) :
    c ~r k ∧ ∃ m t, pyMin c = some m ∧ k = m :: t := by
  rw [canonKey] at h
  cases hm : pyMin c with
  | none => rw [hm] at h; exact absurd h (by simp)
  | some m =>
    rw [hm] at h
    simp only [Option.map_some', Option.some_inj] at h
    have hmem : m ∈ c := pyMin_mem hm
    have hlt : pyIndex c m < c.length := pyIndex_lt_length hmem
    constructor
    · exact ⟨pyIndex c m, by
        rw [List.rotate_eq_drop_append_take (Nat.le_of_lt hlt), h]⟩
    · obtain ⟨t, ht⟩ := pyIndex_drop hmem
      exact ⟨m, t ++ c.take (pyIndex c m), rfl, by rw [← h, ht, List.cons_append]⟩

theorem rotated_nodup_head_eq {k₁ k₂ : List α} (h : k₁ ~r k₂)
    (hnd : k₁.Nodup) (hne : k₁ ≠ []) (hh : k₁.head? = k₂.head?) :
    k₁ = k₂ := by
  obtain ⟨n, hn⟩ := h
  have hlen : 0 < k₁.length := List.length_pos.mpr hne
  have hn' : k₁.rotate (n % k₁.length) = k₂ := by
    rw [List.rotate_mod, hn]
  have hmod : n % k₁.length < k₁.length := Nat.mod_lt _ hlen
  have hhead2 : k₂.head? = k₁[n % k₁.length]? := by
    rw [← hn', List.head?_rotate hmod]
  have hhead1 : k₁.head? = k₁[0]? := by
    cases k₁ with
    | nil => simp at hlen
    | cons a t => simp
  rw [hhead1, hhead2] at hh
  rw [List.getElem?_eq_getElem hlen, List.getElem?_eq_getElem hmod] at hh
  simp only [Option.some_inj] at hh
  have hinj := List.nodup_iff_injective_getElem.mp hnd
  have : (⟨0, hlen⟩ : Fin k₁.length) = ⟨n % k₁.length, hmod⟩ :=
    hinj (by simpa using hh)
  have h0 : n % k₁.length = 0 := by
    have := Fin.mk.inj_iff.mp this
    omega
  rw [← hn', h0, List.rotate_zero]

theorem canonKey_rot_invariant {c₁ c₂ : List α} (hnd : c₁.Nodup)
    (h : c₁ ~r c₂) : canonKey c₁ = canonKey c₂ := by
  cases h1 : canonKey c₁ with
  | none =>
    rw [canonKey_eq_none_iff] at h1
    subst h1
    have hc2 : c₂ = [] := by
      obtain ⟨n, hn⟩ := h
      rw [← hn]
      simp
    rw [hc2]
    rfl
  | some k₁ =>
    cases h2 : canonKey c₂ with
    | none =>
      rw [canonKey_eq_none_iff] at h2
      subst h2
      obtain ⟨n, hn⟩ := h
      have := congrArg List.length hn
      simp at this
      rw [canonKey_eq_none_iff.mpr this] at h1
      exact absurd h1 (by simp)
    | some k₂ =>
      obtain ⟨hr1, m₁, t₁, hm₁, hk₁⟩ := canonKey_spec h1
      obtain ⟨hr2, m₂, t₂, hm₂, hk₂⟩ := canonKey_spec h2
      have hmeq : m₁ = m₂ := by
        have := pyMin_perm h.perm
        rw [hm₁, hm₂] at this
        exact Option.some_inj.mp this
      have hrk : k₁ ~r k₂ := (hr1.symm.trans h).trans hr2
      have hndk : k₁.Nodup := (hr1.nodup_iff).mp hnd
      have hhk : k₁.head? = k₂.head? := by
        rw [hk₁, hk₂, hmeq]
        rfl
      rw [rotated_nodup_head_eq hrk hndk (by rw [hk₁]; simp) hhk]

theorem rotated_of_canonKey_eq {c₁ c₂ : List α} (hne : c₁ ≠ [])
    (h : canonKey c₁ = canonKey c₂) : c₁ ~r c₂ := by
  cases h1 : canonKey c₁ with
  | none => exact absurd (canonKey_eq_none_iff.mp h1) hne
  | some k =>
    rw [h1] at h
    obtain ⟨hr1, _⟩ := canonKey_spec h1
    obtain ⟨hr2, _⟩ := canonKey_spec h.symm
    exact hr1.trans hr2.symm

/-- A successful dedup pass processed only non-empty cycles. -/
theorem dedupGo_ne_nil :
    ∀ (rest seen unique out : List (List α)),
      dedupGo seen unique rest = some out → ∀ c ∈ rest, c ≠ [] := by
  intro rest
  induction rest with
  | nil => intro seen unique out _ c hc; simp at hc
  | cons cycle t ih =>
    intro seen unique out h c hc
    simp only [dedupGo] at h
    cases hm : pyMin cycle with
    | none => rw [hm] at h; exact absurd h (by simp)
    | some m =>
      simp only [hm] at h
      rw [List.mem_cons] at hc
      rcases hc with hc | hc
      · subst hc
        intro he
        rw [he] at hm
        simp [pyMin] at hm
      · split at h
        · exact ih _ _ _ h c hc
        · exact ih _ _ _ h c hc

theorem dedupGo_isSome :
    ∀ (rest seen unique : List (List α)), (∀ c ∈ rest, c ≠ []) →
      (dedupGo seen unique rest).isSome := by
  intro rest
  induction rest with
  | nil => intro seen unique _; simp [dedupGo]
  | cons cycle t ih =>
    intro seen unique hne
    cases hm : pyMin cycle with
    | none =>
      rw [pyMin_eq_none_iff] at hm
      exact absurd hm (hne cycle (List.mem_cons_self _ _))
    | some m =>
      simp only [dedupGo, hm]
      split
      · exact ih seen unique (fun c hc => hne c (List.mem_cons_of_mem _ hc))
      · exact ih _ _ (fun c hc => hne c (List.mem_cons_of_mem _ hc))

theorem canonKey_of_pyMin {cycle : List α} {m : α} (hm : pyMin cycle = some m) :
    canonKey cycle = some (cycle.drop (pyIndex cycle m) ++
      cycle.take (pyIndex cycle m)) := by
  rw [canonKey, hm]
  rfl

theorem dedupGo_post :
    ∀ (rest done seen unique out : List (List α)),
      dedupGo seen unique rest = some out →
      unique.Sublist done →
      (∀ k, k ∈ seen ↔ ∃ u ∈ unique, canonKey u = some k) →
      (∀ c ∈ done, ∃ u ∈ unique, canonKey c = canonKey u) →
      List.Pairwise (fun u v => canonKey u ≠ canonKey v) unique →
      (∀ u ∈ unique, ∃ pre suf, done = pre ++ u :: suf ∧
        ∀ c ∈ pre, canonKey c ≠ canonKey u) →
      out.Sublist (done ++ rest) ∧
      (∀ c ∈ done ++ rest, ∃ u ∈ out, canonKey c = canonKey u) ∧
      List.Pairwise (fun u v => canonKey u ≠ canonKey v) out ∧
      (∀ u ∈ out, ∃ pre suf, done ++ rest = pre ++ u :: suf ∧
        ∀ c ∈ pre, canonKey c ≠ canonKey u) := by
  intro rest
  induction rest with
  | nil =>
    intro done seen unique out h hsub hseen hdone hpw hfirst
    simp only [dedupGo, Option.some_inj] at h
    subst h
    rw [List.append_nil]
    exact ⟨hsub, hdone, hpw, hfirst⟩
  | cons cycle t ih =>
    intro done seen unique out h hsub hseen hdone hpw hfirst
    simp only [dedupGo] at h
    cases hm : pyMin cycle with
    | none => rw [hm] at h; exact absurd h (by simp)
    | some m =>
      simp only [hm] at h
      have hck : canonKey cycle = some (cycle.drop (pyIndex cycle m) ++
          cycle.take (pyIndex cycle m)) := canonKey_of_pyMin hm
      have hassoc : (done ++ [cycle]) ++ t = done ++ cycle :: t := by
        rw [List.append_assoc]
        rfl
      split at h
      next hseen2 =>
        have hdone2 : ∀ c ∈ done ++ [cycle],
            ∃ u ∈ unique, canonKey c = canonKey u := by
          intro c hc
          rw [List.mem_append, List.mem_singleton] at hc
          rcases hc with hc | hc
          · exact hdone c hc
          · subst hc
            obtain ⟨u, hu, hku⟩ := (hseen _).mp hseen2
            exact ⟨u, hu, hck.trans hku.symm⟩
        have hfirst2 : ∀ u ∈ unique, ∃ pre suf,
            done ++ [cycle] = pre ++ u :: suf ∧
            ∀ c ∈ pre, canonKey c ≠ canonKey u := by
          intro u hu
          obtain ⟨pre, suf, hps, hpre⟩ := hfirst u hu
          exact ⟨pre, suf ++ [cycle], by rw [hps, List.append_assoc,
            List.cons_append], hpre⟩
        have := ih (done ++ [cycle]) seen unique out h
          (hsub.trans (List.sublist_append_left done [cycle])) hseen
          hdone2 hpw hfirst2
        rwa [hassoc] at this
      next hseen2 =>
        have hfreshkey : ∀ u ∈ unique, canonKey u ≠ canonKey cycle := by
          intro u hu he
          apply hseen2
          refine (hseen _).mpr ⟨u, hu, ?_⟩
          rw [he, hck]
        have hsub2 : (unique ++ [cycle]).Sublist (done ++ [cycle]) :=
          hsub.append (List.Sublist.refl [cycle])
        have hseen3 : ∀ k, k ∈ (cycle.drop (pyIndex cycle m) ++
            cycle.take (pyIndex cycle m)) :: seen ↔
            ∃ u ∈ unique ++ [cycle], canonKey u = some k := by
          intro k
          rw [List.mem_cons]
          constructor
          · intro hk
            rcases hk with hk | hk
            · exact ⟨cycle, by simp, by rw [hck, hk]⟩
            · obtain ⟨u, hu, hku⟩ := (hseen k).mp hk
              exact ⟨u, List.mem_append_left _ hu, hku⟩
          · rintro ⟨u, hu, hku⟩
            rw [List.mem_append, List.mem_singleton] at hu
            rcases hu with hu | hu
            · exact Or.inr ((hseen k).mpr ⟨u, hu, hku⟩)
            · subst hu
              rw [hck] at hku
              exact Or.inl (Option.some_inj.mp hku).symm
        have hdone2 : ∀ c ∈ done ++ [cycle],
            ∃ u ∈ unique ++ [cycle], canonKey c = canonKey u := by
          intro c hc
          rw [List.mem_append, List.mem_singleton] at hc
          rcases hc with hc | hc
          · obtain ⟨u, hu, hku⟩ := hdone c hc
            exact ⟨u, List.mem_append_left _ hu, hku⟩
          · subst hc
            exact ⟨c, List.mem_append_right _ (List.mem_singleton_self c), rfl⟩
        have hpw2 : List.Pairwise (fun u v => canonKey u ≠ canonKey v)
            (unique ++ [cycle]) := by
          rw [List.pairwise_append]
          refine ⟨hpw, List.pairwise_singleton _ _, ?_⟩
          intro u hu v hv
          rw [List.mem_singleton] at hv
          subst hv
          exact hfreshkey u hu
        have hfirst2 : ∀ u ∈ unique ++ [cycle], ∃ pre suf,
            done ++ [cycle] = pre ++ u :: suf ∧
            ∀ c ∈ pre, canonKey c ≠ canonKey u := by
          intro u hu
          rw [List.mem_append, List.mem_singleton] at hu
          rcases hu with hu | hu
          · obtain ⟨pre, suf, hps, hpre⟩ := hfirst u hu
            exact ⟨pre, suf ++ [cycle], by rw [hps, List.append_assoc,
              List.cons_append], hpre⟩
          · subst hu
            refine ⟨done, [], rfl, ?_⟩
            intro c hc he
            obtain ⟨w, hw, hkw⟩ := hdone c hc
            exact hfreshkey w hw (by rw [← hkw, he])
        have := ih (done ++ [cycle]) _ (unique ++ [cycle]) out h
          hsub2 hseen3 hdone2 hpw2 hfirst2
        rwa [hassoc] at this

/-- A list whose canonical keys are pairwise distinct and fresh passes
through `dedupGo` unchanged. -/
theorem dedupGo_keys_fresh :
    ∀ (rest seen unique : List (List α)),
      (∀ c ∈ rest, c ≠ []) →
      (∀ c ∈ rest, ∀ k, canonKey c = some k → k ∉ seen) →
      List.Pairwise (fun u v => canonKey u ≠ canonKey v) rest →
      dedupGo seen unique rest = some (unique ++ rest) := by
  intro rest
  induction rest with
  | nil => intro seen unique _ _ _; simp [dedupGo]
  | cons cycle t ih =>
    intro seen unique hne hfresh hpw
    cases hm : pyMin cycle with
    | none =>
      rw [pyMin_eq_none_iff] at hm
      exact absurd hm (hne cycle (List.mem_cons_self _ _))
    | some m =>
      have hck := canonKey_of_pyMin hm
      have hnotseen : cycle.drop (pyIndex cycle m) ++
          cycle.take (pyIndex cycle m) ∉ seen :=
        hfresh cycle (List.mem_cons_self _ _) _ hck
      simp only [dedupGo, hm]
      split
      next hseen => exact absurd hseen hnotseen
      next =>
        rw [List.pairwise_cons] at hpw
        have := ih ((cycle.drop (pyIndex cycle m) ++
            cycle.take (pyIndex cycle m)) :: seen) (unique ++ [cycle])
          (fun c hc => hne c (List.mem_cons_of_mem _ hc))
          (by
            intro c hc k hk
            rw [List.mem_cons]
            push_neg
            constructor
            · intro he
              apply hpw.1 c hc
              rw [hck, hk, he]
            · exact hfresh c (List.mem_cons_of_mem _ hc) k hk)
          hpw.2
        rw [this, List.append_assoc]
        rfl

end Dedup

/-! ## Graph-builder lemmas -/

theorem setAdd_mem {s : List α} {x m : α} [DecidableEq α]
    (h : m ∈ setAdd s x) : m ∈ s ∨ m = x := by
  rw [setAdd] at h
  by_cases hx : x ∈ s
  · rw [if_pos hx] at h
    exact Or.inl h
  · rw [if_neg hx] at h
    rw [List.mem_append, List.mem_singleton] at h
    exact h

section BuildGraph

/-- Keys never disappear under `dictSet`. -/
theorem mem_keys_dictSet [DecidableEq α] {d : List (α × β)} {x k : α} (v : β)
    (h : x ∈ dictKeys d) : x ∈ dictKeys (dictSet d k v) := by
  rw [dictSet]
  by_cases hc : dictContains d k = true
  · rw [if_pos hc]
    rw [dictKeys, List.map_map] at *
    obtain ⟨p, hp, hpx⟩ := List.mem_map.mp h
    apply List.mem_map.mpr
    refine ⟨p, hp, ?_⟩
    by_cases hpk : p.1 = k <;> simp [hpk] at hpx ⊢ <;> rw [← hpx] <;> simp [hpk]
  · rw [if_neg hc, dictKeys_append]
    exact List.mem_append_left _ h

theorem mem_keys_addEdge {st : BuildSt} {x : String}
    (s t nm : String) (h : x ∈ dictKeys st.1) :
    x ∈ dictKeys (addEdge st s t nm).1 := by
  rw [addEdge]
  simp only []
  cases hf : dictFind? st.1 s with
  | some l =>
    by_cases hc : dictContains (dictSet st.1 s (setAdd l t)) t = true
    · simp only [hf, if_pos hc]
      exact mem_keys_dictSet _ h
    · simp only [hf, if_neg hc, dictKeys_append]
      exact List.mem_append_left _ (mem_keys_dictSet _ h)
  | none =>
    by_cases hc : dictContains (st.1 ++ [(s, setAdd [] t)]) t = true
    · simp only [hf, if_pos hc, dictKeys_append]
      exact List.mem_append_left _ h
    · simp only [hf, if_neg hc, dictKeys_append]
      exact List.mem_append_left _ (List.mem_append_left _ h)

theorem target_mem_keys_addEdge (st : BuildSt) (s t nm : String) :
    t ∈ dictKeys (addEdge st s t nm).1 := by
  rw [addEdge]
  simp only []
  cases hf : dictFind? st.1 s with
  | some l =>
    by_cases hc : dictContains (dictSet st.1 s (setAdd l t)) t = true
    · simp only [hf, if_pos hc]
      exact dictContains_iff.mp hc
    · simp only [hf, if_neg hc, dictKeys_append]
      exact List.mem_append_right _ (by simp [dictKeys])
  | none =>
    by_cases hc : dictContains (st.1 ++ [(s, setAdd [] t)]) t = true
    · simp only [hf, if_pos hc]
      exact dictContains_iff.mp hc
    · simp only [hf, if_neg hc, dictKeys_append]
      exact List.mem_append_right _ (by simp [dictKeys])

theorem closed_addEdge {st : BuildSt} (s t nm : String)
    (h : Closed st.1) : Closed (addEdge st s t nm).1 := by
  intro p hp m hm
  -- membership in the final graph decomposes into the ensure step,
  -- the adjacency update, and the untouched entries
  have hkeys : ∀ x, x ∈ dictKeys st.1 → x ∈ dictKeys (addEdge st s t nm).1 :=
    fun x hx => mem_keys_addEdge s t nm hx
  have htk : t ∈ dictKeys (addEdge st s t nm).1 := target_mem_keys_addEdge st s t nm
  rw [addEdge] at hp
  simp only [] at hp
  -- peel the ensure step
  have hp1 : p ∈ (match dictFind? st.1 s with
      | some l => dictSet st.1 s (setAdd l t)
      | none => st.1 ++ [(s, setAdd [] t)]) ∨ p = (t, []) := by
    cases hf : dictFind? st.1 s with
    | some l =>
      simp only [hf] at hp
      by_cases hc : dictContains (dictSet st.1 s (setAdd l t)) t = true
      · rw [if_pos hc] at hp
        exact Or.inl (by simp only [hf]; exact hp)
      · rw [if_neg hc] at hp
        rw [List.mem_append, List.mem_singleton] at hp
        rcases hp with hp | hp
        · exact Or.inl (by simp only [hf]; exact hp)
        · exact Or.inr hp
    | none =>
      simp only [hf] at hp
      by_cases hc : dictContains (st.1 ++ [(s, setAdd [] t)]) t = true
      · rw [if_pos hc] at hp
        exact Or.inl (by simp only [hf]; exact hp)
      · rw [if_neg hc] at hp
        rw [List.mem_append, List.mem_singleton] at hp
        rcases hp with hp | hp
        · exact Or.inl (by simp only [hf]; exact hp)
        · exact Or.inr hp
  rcases hp1 with hp1 | hp1
  · cases hf : dictFind? st.1 s with
    | some l =>
      simp only [hf] at hp1
      rw [dictSet] at hp1
      by_cases hc : dictContains st.1 s = true
      · rw [if_pos hc] at hp1
        obtain ⟨q, hq, hqp⟩ := List.mem_map.mp hp1
        by_cases hqs : q.1 = s
        · rw [if_pos hqs] at hqp
          rw [← hqp] at hm
          simp only [] at hm
          rcases setAdd_mem hm with hm | hm
          · exact hkeys m (h _ (mem_of_dictFind? hf) m hm)
          · exact hm ▸ htk
        · rw [if_neg hqs] at hqp
          exact hkeys m (h q hq m (hqp ▸ hm))
      · rw [if_neg hc] at hp1
        rw [List.mem_append, List.mem_singleton] at hp1
        rcases hp1 with hp1 | hp1
        · exact hkeys m (h p hp1 m hm)
        · rw [hp1] at hm
          simp only [] at hm
          rcases setAdd_mem hm with hm | hm
          · exact hkeys m (h _ (mem_of_dictFind? hf) m hm)
          · exact hm ▸ htk
    | none =>
      simp only [hf] at hp1
      rw [List.mem_append, List.mem_singleton] at hp1
      rcases hp1 with hp1 | hp1
      · exact hkeys m (h p hp1 m hm)
      · rw [hp1] at hm
        simp only [] at hm
        rcases setAdd_mem hm with hm | hm
        · simp at hm
        · exact hm ▸ htk
  · rw [hp1] at hm
    simp at hm

theorem closed_foldl_addEdge {st : BuildSt} (s nm : String)
    (targets : List String) (h : Closed st.1) :
    Closed ((targets.foldl (fun st2 tv => addEdge st2 s tv nm) st).1) := by
  induction targets generalizing st with
  | nil => exact h
  | cons tv rest ih => exact ih (closed_addEdge s tv nm h)

theorem closed_processRow {st : BuildSt} (sep : Option String)
    (nm : String) (si ti : Nat) (row : List (Option String))
    (h : Closed st.1) : Closed ((processRow sep nm si ti st row).1) := by
  rw [processRow]
  cases row.getD si none with
  | none => exact h
  | some sv =>
    cases row.getD ti none with
    | none => exact h
    | some tv =>
      simp only []
      by_cases h1 : pyStrip sv = ""
      · rw [if_pos h1]; exact h
      · rw [if_neg h1]
        by_cases h2 : pyStrip tv = ""
        · rw [if_pos h2]; exact h
        · rw [if_neg h2]
          exact closed_foldl_addEdge _ _ _ h

theorem closed_processSheet {st : BuildSt} (sc tc : String)
    (sep : Option String) (sheet : Sheet) (h : Closed st.1) :
    Closed ((processSheet sc tc sep st sheet).1) := by
  rw [processSheet]
  cases findCols sheet sc tc with
  | none => exact h
  | some idx =>
    obtain ⟨si, ti⟩ := idx
    simp only []
    have : ∀ (rows : List (List (Option String))) (st2 : BuildSt),
        Closed st2.1 →
        Closed ((rows.foldl (processRow sep sheet.name si ti) st2).1) := by
      intro rows
      induction rows with
      | nil => intro st2 h2; exact h2
      | cons r rest ih =>
        intro st2 h2
        exact ih _ (closed_processRow sep sheet.name si ti r h2)
    exact this sheet.rows st h

theorem addEdge_eo (st : BuildSt) (s t nm : String) :
    (addEdge st s t nm).2 = eoStep st.2 ((s, t), nm) := by
  rw [addEdge, eoStep]

theorem foldl_addEdge_eo (s nm : String) :
    ∀ (targets : List String) (st : BuildSt),
      ((targets.foldl (fun st2 tv => addEdge st2 s tv nm) st).2) =
        (targets.map (fun tv => ((s, tv), nm))).foldl eoStep st.2 := by
  intro targets
  induction targets with
  | nil => intro st; rfl
  | cons tv rest ih =>
    intro st
    rw [List.foldl_cons, List.map_cons, List.foldl_cons, ih, addEdge_eo]

theorem processRow_eo (sep : Option String) (nm : String) (si ti : Nat)
    (st : BuildSt) (row : List (Option String)) :
    (processRow sep nm si ti st row).2 =
      (rowEvents sep nm si ti row).foldl eoStep st.2 := by
  rw [processRow, rowEvents]
  cases row.getD si none with
  | none => rfl
  | some sv =>
    cases row.getD ti none with
    | none => rfl
    | some tv =>
      simp only []
      by_cases h1 : pyStrip sv = ""
      · rw [if_pos h1, if_pos h1]
        rfl
      · rw [if_neg h1, if_neg h1]
        by_cases h2 : pyStrip tv = ""
        · rw [if_pos h2, if_pos h2]
          rfl
        · rw [if_neg h2, if_neg h2]
          exact foldl_addEdge_eo _ _ _ st

theorem processSheet_eo (sc tc : String) (sep : Option String)
    (sheet : Sheet) (st : BuildSt) :
    (processSheet sc tc sep st sheet).2 =
      (sheetEvents sc tc sep sheet).foldl eoStep st.2 := by
  rw [processSheet, sheetEvents]
  cases findCols sheet sc tc with
  | none => rfl
  | some idx =>
    obtain ⟨si, ti⟩ := idx
    simp only []
    have : ∀ (rows : List (List (Option String))) (st2 : BuildSt),
        (rows.foldl (processRow sep sheet.name si ti) st2).2 =
        (rows.flatMap (rowEvents sep sheet.name si ti)).foldl eoStep st2.2 := by
      intro rows
      induction rows with
      | nil => intro st2; rfl
      | cons r rest ih =>
        intro st2
        rw [List.foldl_cons, List.flatMap_cons, List.foldl_append, ih,
          processRow_eo]
    exact this sheet.rows st

theorem build_graph_eo (sheets : List Sheet) (sc tc : String)
    (sep : Option String) :
    (build_graph sheets sc tc sep).2 =
      (specEdgeOccurrences sheets sc tc sep).foldl eoStep [] := by
  rw [build_graph, specEdgeOccurrences]
  have : ∀ (ss : List Sheet) (st : BuildSt),
      (ss.foldl (processSheet sc tc sep) st).2 =
      (ss.flatMap (sheetEvents sc tc sep)).foldl eoStep st.2 := by
    intro ss
    induction ss with
    | nil => intro st; rfl
    | cons sh rest ih =>
      intro st
      rw [List.foldl_cons, List.flatMap_cons, List.foldl_append, ih,
        processSheet_eo]
  exact this sheets ([], [])

theorem eoStep_lookup (eo : OriginsT) (q : (String × String) × String)
    (e : String × String) :
    (dictFind? (eoStep eo q) e).getD [] =
      (dictFind? eo e).getD [] ++ (if q.1 = e then [q.2] else []) := by
  rw [eoStep]
  by_cases hqe : q.1 = e
  · subst hqe
    rw [if_pos rfl]
    cases hf : dictFind? eo q.1 with
    | some l =>
      simp only []
      rw [dictFind?_dictSet_self]
      rfl
    | none =>
      simp only []
      rw [dictFind?_append_right_of_none hf, dictFind?_cons]
      simp
  · rw [if_neg hqe]
    cases hf : dictFind? eo q.1 with
    | some l =>
      simp only []
      rw [dictFind?_dictSet_ne _ _ (fun he => hqe he.symm), List.append_nil]
    | none =>
      simp only []
      cases hf2 : dictFind? eo e with
      | some l2 => simp [dictFind?_append_left hf2, hf2]
      | none =>
        rw [dictFind?_append_right_of_none hf2, dictFind?_cons]
        simp [hqe, hf2, dictFind?_nil]

theorem foldl_eoStep_lookup (e : String × String) :
    ∀ (events : List ((String × String) × String)) (eo : OriginsT),
      (dictFind? (events.foldl eoStep eo) e).getD [] =
        (dictFind? eo e).getD [] ++
          (events.filter (fun q => decide (q.1 = e))).map (fun q => q.2) := by
  intro events
  induction events with
  | nil => intro eo; simp
  | cons q rest ih =>
    intro eo
    rw [List.foldl_cons, ih, eoStep_lookup]
    by_cases hqe : q.1 = e
    · rw [if_pos hqe, List.filter_cons_of_pos (by simp [hqe]), List.map_cons,
        List.append_assoc]
      rfl
    · rw [if_neg hqe, List.filter_cons_of_neg (by simp [hqe]), List.append_nil]

/-! ## Skip lemmas for the graph builder -/

theorem processSheet_skip {sheet : Sheet} {sc tc : String}
    (sep : Option String) (h : findCols sheet sc tc = none) (st : BuildSt) :
    processSheet sc tc sep st sheet = st := by
  rw [processSheet, h]

theorem build_graph_skip_sheet {sheet : Sheet} {sc tc : String}
    (sep : Option String) (h : findCols sheet sc tc = none)
    (xs ys : List Sheet) :
    build_graph (xs ++ sheet :: ys) sc tc sep = build_graph (xs ++ ys) sc tc sep := by
  rw [build_graph, build_graph, List.foldl_append, List.foldl_append,
    List.foldl_cons, processSheet_skip sep h]

theorem processRow_skip {row : List (Option String)} {si ti : Nat}
    (sep : Option String) (nm : String) (h : RowSkipped row si ti)
    (st : BuildSt) : processRow sep nm si ti st row = st := by
  rw [processRow]
  rcases h with h | h | ⟨sv, hsv, hsv2⟩ | ⟨tv, htv, htv2⟩
  · rw [h]
  · rw [h]
    cases row.getD si none <;> rfl
  · rw [hsv]
    cases htv : row.getD ti none with
    | none => rfl
    | some tv =>
      simp only []
      rw [if_pos hsv2]
  · rw [htv]
    cases hsv : row.getD si none with
    | none => rfl
    | some sv =>
      simp only []
      by_cases h1 : pyStrip sv = ""
      · rw [if_pos h1]
      · rw [if_neg h1, if_pos htv2]

theorem processSheet_skip_row {nm : String} {hdr : List (Option String)}
    {rs1 rs2 : List (List (Option String))} {row : List (Option String)}
    {sc tc : String} {si ti : Nat} (sep : Option String)
    (hcols : findCols ⟨nm, hdr, rs1 ++ row :: rs2⟩ sc tc = some (si, ti))
    (hskip : RowSkipped row si ti) (st : BuildSt) :
    processSheet sc tc sep st ⟨nm, hdr, rs1 ++ row :: rs2⟩ =
      processSheet sc tc sep st ⟨nm, hdr, rs1 ++ rs2⟩ := by
  have hcols2 : findCols ⟨nm, hdr, rs1 ++ rs2⟩ sc tc = some (si, ti) := by
    rw [← hcols]
    rfl
  rw [processSheet, processSheet, hcols, hcols2]
  simp only [List.foldl_append, List.foldl_cons]
  rw [processRow_skip sep nm hskip]

end BuildGraph

/-! ## Claim theorems -/

/-- C1 (counterexample): the claim "`find_all_cycles` returns a list
containing every elementary cycle of the graph (each directed
elementary cycle appears, in some rotation, as at least one entry)"
fails on the closed, well-formed graph `0 → 1, 0 → 2, 1 → 3, 2 → 3,
3 → 0`: the run returns only `[0, 1, 3]`, while `[0, 2, 3]` is an
elementary cycle of the graph no rotation of which is returned (the
edge `2 → 3` is scanned when `3` is already BLACK, so that cycle is
never closed). -/
theorem C1_counterexample :
    WFg [(0, [1, 2]), (1, [3]), (2, [3]), (3, [0])] ∧
    Closed [(0, [1, 2]), (1, [3]), (2, [3]), (3, [0])] ∧
    find_all_cycles [(0, [1, 2]), (1, [3]), (2, [3]), (3, [0])] =
      some [[0, 1, 3]] ∧
    IsCycleOf [(0, [1, 2]), (1, [3]), (2, [3]), (3, [0])] [0, 2, 3] ∧
    ([0, 2, 3] : List Nat).Nodup ∧
    ∀ r ∈ [[0, 1, 3]], ¬ r ~r ([0, 2, 3] : List Nat) := by decide

/-- C1 (amended): on every graph satisfying the data-model closure
invariant, `find_all_cycles` returns a non-empty list whenever the
graph contains at least one directed cycle — it finds at least one
cycle per run, though not necessarily every elementary cycle (the
missed ones motivate nothing here; duplication, not completeness, is
what the deduplication stage addresses). -/
theorem C1_detects_cycles {α : Type} [DecidableEq α] (g : GraphT α)
    (hwf : WFg g) (hcl : Closed g) (hcyc : ∃ K, IsCycleOf g K) :
    ∃ out, find_all_cycles g = some out ∧ out ≠ [] := by
  have hsome := find_all_cycles_isSome hwf hcl
  cases hres : find_all_cycles g with
  | none => rw [hres] at hsome; simp at hsome
  | some out =>
    refine ⟨out, rfl, ?_⟩
    intro he
    subst he
    exact find_all_cycles_empty_no_cycle hres hcyc

/-- Witness for the amended C1 at the self-loop graph `0 → 0`. -/
theorem C1_detects_cycles_witness :
    WFg [(0, [0])] ∧ Closed [(0, [0])] ∧
    (∃ K, IsCycleOf [(0, [0])] K) ∧
    ∃ out, find_all_cycles [(0, [0])] = some out ∧ out ≠ [] :=
  ⟨by decide, by decide, ⟨[0], by decide⟩,
    C1_detects_cycles _ (by decide) (by decide) ⟨[0], by decide⟩⟩

/-- C2: `build_graph` raises no error on any tabular input and any
configuration — in this embedding it is a total function — and the two
skip rules hold: a sheet whose header lacks the configured source or
target column (matched case-insensitively, `findCols = none`)
contributes no edges and is silently dropped from the fold, and a data
row whose source or target cell is absent or blank after trimming
(`RowSkipped`) is silently dropped from its sheet's fold. -/
theorem C2_build_graph_skips :
    (∀ (source_col target_col : String) (separator : Option String)
        (xs ys : List Sheet) (sheet : Sheet),
        findCols sheet source_col target_col = none →
        build_graph (xs ++ sheet :: ys) source_col target_col separator =
          build_graph (xs ++ ys) source_col target_col separator) ∧
    (∀ (source_col target_col : String) (separator : Option String)
        (nm : String) (hdr : List (Option String))
        (rs1 rs2 : List (List (Option String))) (row : List (Option String))
        (si ti : Nat),
        findCols ⟨nm, hdr, rs1 ++ row :: rs2⟩ source_col target_col =
          some (si, ti) →
        RowSkipped row si ti →
        ∀ st, processSheet source_col target_col separator st
            ⟨nm, hdr, rs1 ++ row :: rs2⟩ =
          processSheet source_col target_col separator st
            ⟨nm, hdr, rs1 ++ rs2⟩) := by
  constructor
  · intro sc tc sep xs ys sheet h
    exact build_graph_skip_sheet sep h xs ys
  · intro sc tc sep nm hdr rs1 rs2 row si ti hcols hskip st
    exact processSheet_skip_row sep hcols hskip st

/-- Witness for C2: a sheet without the configured columns contributes
nothing, and a row with an absent source cell is skipped. -/
theorem C2_build_graph_skips_witness :
    build_graph ([] ++ (⟨"Other", [some "X"], [[some "A", some "B"]]⟩ : Sheet)
        :: []) "Task" "Depends On" (some ",") =
      build_graph ([] ++ []) "Task" "Depends On" (some ",") ∧
    processSheet "Task" "Depends On" (some ",") ([], [])
        ⟨"S", [some "Task", some "Depends On"],
          [] ++ [none, some "B"] :: [[some "A", some "B"]]⟩ =
      processSheet "Task" "Depends On" (some ",") ([], [])
        ⟨"S", [some "Task", some "Depends On"], [] ++ [[some "A", some "B"]]⟩ :=
  ⟨C2_build_graph_skips.1 "Task" "Depends On" (some ",") [] []
      ⟨"Other", [some "X"], [[some "A", some "B"]]⟩ (by decide),
    C2_build_graph_skips.2 "Task" "Depends On" (some ",") "S"
      [some "Task", some "Depends On"] [] [[some "A", some "B"]]
      [none, some "B"] 0 1 (by decide) (Or.inl (by decide)) ([], [])⟩

/-- C3: on a list of non-empty duplicate-free cycles,
`deduplicate_cycles` succeeds and returns exactly one representative
per cyclic-rotation class: the output is a sublist of the input (each
survivor unchanged, in discovery order), every input cycle has a
rotation-equivalent representative in the output, no two output
entries are rotations of each other (so reversed cycles, which are not
rotations, are never merged), and each representative is the first
cycle of its class in the input. -/
theorem C3_deduplicate_classes {α : Type} [LinearOrder α]
    (l : List (List α)) (hne : ∀ c ∈ l, c ≠ []) (hnd : ∀ c ∈ l, c.Nodup) :
    ∃ out, deduplicate_cycles l = some out ∧
      out.Sublist l ∧
      (∀ c ∈ l, ∃ u ∈ out, u ~r c) ∧
      List.Pairwise (fun u v => ¬ u ~r v) out ∧
      ∀ u ∈ out, ∃ pre suf, l = pre ++ u :: suf ∧ ∀ c ∈ pre, ¬ c ~r u := by
  have hsome := dedupGo_isSome l [] [] hne
  cases hres : dedupGo ([] : List (List α)) [] l with
  | none => rw [hres] at hsome; simp at hsome
  | some out =>
    obtain ⟨hsub, hrep, hpw, hfirst⟩ := dedupGo_post l [] [] [] out hres
      (List.Sublist.refl []) (by simp) (by simp) (by simp) (by simp)
    rw [List.nil_append] at hsub hrep hfirst
    refine ⟨out, hres, hsub, ?_, ?_, ?_⟩
    · intro c hc
      obtain ⟨u, hu, hku⟩ := hrep c hc
      refine ⟨u, hu, ?_⟩
      exact rotated_of_canonKey_eq (hne u (hsub.subset hu)) hku.symm
    · refine hpw.imp_of_mem ?_
      intro u v hu hv hne2 hrot
      exact hne2 (canonKey_rot_invariant (hnd u (hsub.subset hu)) hrot)
    · intro u hu
      obtain ⟨pre, suf, hps, hpre⟩ := hfirst u hu
      refine ⟨pre, suf, hps, ?_⟩
      intro c hc hrot
      have hcl : c ∈ l := by rw [hps]; exact List.mem_append_left _ hc
      exact hpre c hc (canonKey_rot_invariant (hnd c hcl) hrot)

/-- Witness for C3: two rotations of the same 3-cycle are merged, the
reversed cycle survives separately. -/
theorem C3_deduplicate_classes_witness :
    (∀ c ∈ [[1, 2, 3], [2, 3, 1], [1, 3, 2]], c ≠ []) ∧
    (∀ c ∈ [[1, 2, 3], [2, 3, 1], [1, 3, 2]], c.Nodup) ∧
    ∃ out, deduplicate_cycles [[1, 2, 3], [2, 3, 1], [1, 3, 2]] = some out ∧
      out.Sublist [[1, 2, 3], [2, 3, 1], [1, 3, 2]] ∧
      (∀ c ∈ [[1, 2, 3], [2, 3, 1], [1, 3, 2]], ∃ u ∈ out, u ~r c) ∧
      List.Pairwise (fun u v => ¬ u ~r v) out ∧
      ∀ u ∈ out, ∃ pre suf, [[1, 2, 3], [2, 3, 1], [1, 3, 2]] =
        pre ++ u :: suf ∧ ∀ c ∈ pre, ¬ c ~r u :=
  ⟨by decide, by decide,
    C3_deduplicate_classes ([[1, 2, 3], [2, 3, 1], [1, 3, 2]] : List (List Nat))
      (by decide) (by decide)⟩

/-- C4: for every input and configuration, the graph built by
`build_graph` satisfies the closure invariant — every node appearing
in some neighbour set is itself a key of the mapping (possibly with an
empty set, added by the ensure step). -/
theorem C4_build_graph_closed (sheets : List Sheet)
    (source_col target_col : String) (separator : Option String) :
    Closed (build_graph sheets source_col target_col separator).1 := by
  rw [build_graph]
  have hfold : ∀ (ss : List Sheet) (st : BuildSt), Closed st.1 →
      Closed ((ss.foldl (processSheet source_col target_col separator) st).1) := by
    intro ss
    induction ss with
    | nil => intro st h; exact h
    | cons sh rest ih =>
      intro st h
      exact ih _ (closed_processSheet source_col target_col separator sh h)
  apply hfold
  intro p hp
  simp at hp

/-- C5: the edge-provenance index built by `build_graph` maps each
`(source, target)` pair to the ordered list of sheet names of every
row occurrence that produced that edge, in encounter order across
sheets, with repetitions preserved (`specEdgeOccurrences` is the
spec-side occurrence list); in particular two sheets each holding the
row "A depends on B" give exactly `["Sheet1", "Sheet2"]` for the edge
`(A, B)`. -/
theorem C5_edge_provenance :
    (∀ (sheets : List Sheet) (source_col target_col : String)
        (separator : Option String) (e : String × String),
        (dictFind? (build_graph sheets source_col target_col separator).2
            e).getD [] =
          ((specEdgeOccurrences sheets source_col target_col
              separator).filter (fun q => decide (q.1 = e))).map
            (fun q => q.2)) ∧
    (dictFind? (build_graph
        [⟨"Sheet1", [some "Task", some "Depends On"], [[some "A", some "B"]]⟩,
          ⟨"Sheet2", [some "Task", some "Depends On"], [[some "A", some "B"]]⟩]
        "Task" "Depends On" (some ",")).2 ("A", "B")).getD [] =
      ["Sheet1", "Sheet2"] := by
  constructor
  · intro sheets sc tc sep e
    rw [build_graph_eo sheets sc tc sep, foldl_eoStep_lookup e _ []]
    simp [dictFind?_nil]
  · decide

/-- C6: `find_all_cycles` terminates on every well-formed graph
satisfying the closure invariant: in the embedding the recursion fuel
is the node count (each node moves WHITE → GRAY → BLACK monotonically
and only WHITE nodes are recursed into, so the depth never exceeds the
number of nodes), and a run with that fuel always returns a result. -/
theorem C6_terminates {α : Type} [DecidableEq α] (g : GraphT α)
    (hwf : WFg g) (hcl : Closed g) : (find_all_cycles g).isSome = true :=
  find_all_cycles_isSome hwf hcl

/-- Witness for C6 at the 2-cycle graph `0 → 1 → 0`. -/
theorem C6_terminates_witness :
    WFg [(0, [1]), (1, [0])] ∧ Closed [(0, [1]), (1, [0])] ∧
      (find_all_cycles [(0, [1]), (1, [0])]).isSome = true :=
  ⟨by decide, by decide, C6_terminates _ (by decide) (by decide)⟩

/-- C7: on the graph with the single node `A` and the self-loop
`A → A`, running `find_all_cycles` and then `deduplicate_cycles`
yields exactly one cycle, the length-1 sequence `[A]`. -/
theorem C7_self_loop_pipeline :
    (find_all_cycles [("A", ["A"])]).bind deduplicate_cycles =
      some [["A"]] := by decide

/-- C8: on every well-formed graph satisfying the closure invariant,
`find_all_cycles` succeeds, every sequence it returns is a genuine
directed cycle of the graph, and consequently on an acyclic graph
(including the empty graph) the returned list is empty. -/
theorem C8_sound_and_acyclic_empty {α : Type} [DecidableEq α]
    (g : GraphT α) (hwf : WFg g) (hcl : Closed g) :
    ∃ out, find_all_cycles g = some out ∧
      (∀ x ∈ out, IsCycleOf g x) ∧
      ((¬ ∃ K, IsCycleOf g K) → out = []) := by
  have hsome := find_all_cycles_isSome hwf hcl
  cases hres : find_all_cycles g with
  | none => rw [hres] at hsome; simp at hsome
  | some out =>
    obtain ⟨hsound, _⟩ := find_all_cycles_post hres
    refine ⟨out, rfl, fun x hx => (hsound x hx).1, ?_⟩
    intro hacyc
    cases out with
    | nil => rfl
    | cons x t =>
      exact absurd ⟨x, (hsound x (List.mem_cons_self _ _)).1⟩ hacyc

/-- Witness for C8 at the acyclic graph `0 → 1`. -/
theorem C8_sound_and_acyclic_empty_witness :
    WFg [(0, [1]), (1, [])] ∧ Closed [(0, [1]), (1, [])] ∧
    ∃ out, find_all_cycles [(0, [1]), (1, [])] = some out ∧
      (∀ x ∈ out, IsCycleOf [(0, [1]), (1, [])] x) ∧
      ((¬ ∃ K, IsCycleOf [(0, [1]), (1, [])] K) → out = []) :=
  ⟨by decide, by decide,
    C8_sound_and_acyclic_empty _ (by decide) (by decide)⟩

/-- C9: `deduplicate_cycles` is idempotent — for every list of
non-empty cycles it succeeds, and applied to its own output it returns
that output unchanged. -/
theorem C9_dedup_idempotent {α : Type} [LinearOrder α]
    (l : List (List α)) (hne : ∀ c ∈ l, c ≠ []) :
    ∃ out, deduplicate_cycles l = some out ∧
      deduplicate_cycles out = some out := by
  have hsome := dedupGo_isSome l [] [] hne
  cases hres : dedupGo ([] : List (List α)) [] l with
  | none => rw [hres] at hsome; simp at hsome
  | some out =>
    obtain ⟨hsub, _, hpw, _⟩ := dedupGo_post l [] [] [] out hres
      (List.Sublist.refl []) (by simp) (by simp) (by simp) (by simp)
    rw [List.nil_append] at hsub
    refine ⟨out, hres, ?_⟩
    have := dedupGo_keys_fresh out [] []
      (fun c hc => hne c (hsub.subset hc))
      (by intro c _ k _ hk; simp at hk)
      hpw
    rw [deduplicate_cycles, this, List.nil_append]

/-- Witness for C9. -/
theorem C9_dedup_idempotent_witness :
    (∀ c ∈ [[2, 3], [3, 2], [1]], c ≠ []) ∧
    ∃ out, deduplicate_cycles [[2, 3], [3, 2], [1]] = some out ∧
      deduplicate_cycles out = some out :=
  ⟨by decide,
    C9_dedup_idempotent ([[2, 3], [3, 2], [1]] : List (List Nat)) (by decide)⟩

/-- C10: `find_all_cycles` performs no failing colour lookup — i.e. it
returns a result rather than the `none` that models the `KeyError` —
exactly when the well-formed input graph is closed (every member of
every neighbour set is a key of the mapping). -/
theorem C10_isSome_iff_closed {α : Type} [DecidableEq α] (g : GraphT α)
    (hwf : WFg g) : (find_all_cycles g).isSome = true ↔ Closed g := by
  constructor
  · intro hsome
    cases hres : find_all_cycles g with
    | none => rw [hres] at hsome; simp at hsome
    | some out =>
      obtain ⟨_, hcl⟩ := find_all_cycles_post hres
      intro p hp m hm
      have hk : p.1 ∈ dictKeys g := List.mem_map_of_mem _ hp
      apply hcl p.1 hk m
      rw [nbrs_eq_of_find? (dictFind?_of_mem_wf hwf hp)]
      exact hm
  · exact fun hcl => find_all_cycles_isSome hwf hcl

/-- Witness for C10 at the non-closed graph `0 → 1` (node `1` is not a
key): both sides of the equivalence are false. -/
theorem C10_isSome_iff_closed_witness :
    WFg [(0, [1])] ∧
      ((find_all_cycles [(0, [1])]).isSome = true ↔ Closed [(0, [1])]) :=
  ⟨by decide, C10_isSome_iff_closed _ (by decide)⟩

end CycFind
